import Mathlib

/-!
Verification of the rule-based data-processing pipeline of this repository
(DataProcessor, RuleRegistry, BaseRule, the five concrete rules and the
functional utilities).  JavaScript values are shallowly embedded as `JValue`;
`undefined` is represented by `Option.none` at use sites.  JS numbers are
modelled as integers (the pipeline only manipulates integer counts and
compares numeric prefixes of strings; fractional parts of `parseFloat` and
`Date` objects are outside the model).  Function-valued configuration entries
(Transform's computed fields) are embedded as named function symbols
interpreted by an environment `FnEnv`; a function that throws is modelled by
`Except.error`.  Wall-clock timing (`performance.now`) is abstracted: the
`processingTime` metadata field is always 0 in the model.
-/

/-- JSON-like JavaScript value.  `func` is a named function symbol, resolved
by a `FnEnv`; objects are association lists with (as in JS) unique keys in
insertion order. -/
inductive JValue where
  | null : JValue
  | bool : Bool → JValue
  | num : Int → JValue
  | str : String → JValue
  | arr : List JValue → JValue
  | obj : List (String × JValue) → JValue
  | func : String → JValue

/-- Interpretation of function symbols: a computed-field function receives a
record and either returns a value or throws (`Except.error`). -/
def FnEnv : Type := String → JValue → Except String JValue

/-- JS truthiness of a value (`none` stands for `undefined`). -/
def truthy : Option JValue → Bool
  | none => false
  | some .null => false
  | some (.bool b) => b
  | some (.num n) => n != 0
  | some (.str s) => s ≠ ""
  | some (.arr _) => true
  | some (.obj _) => true
  | some (.func _) => true

/-- First binding of a key in an association list (JS objects have unique
keys, so this is the object's property). -/
def jlookup : List (String × JValue) → String → Option JValue
  | [], _ => none
  | kv :: rest, k => if kv.1 = k then some kv.2 else jlookup rest k

/-- Canonical decimal string of a natural number, used for array index keys
and `Object.entries` of arrays. -/
def natKeyStr (n : Nat) : String := toString n

/-- JS property access `v[key]` for the value forms the pipeline reads:
object properties, array elements / `length`, string characters / `length`.
Property access on primitives yields `undefined`; `null[key]` would throw in
JS but every call site guards with a truthiness test first. -/
def jsIndex : Option JValue → String → Option JValue
  | some (.obj kvs), k => jlookup kvs k
  | some (.arr xs), k =>
      if k = "length" then some (.num xs.length)
      else match k.toNat? with
        | some i => if natKeyStr i = k then xs.get? i else none
        | none => none
  | some (.str s), k =>
      if k = "length" then some (.num s.length)
      else match k.toNat? with
        | some i =>
            if natKeyStr i = k then (s.data.get? i).map (fun c => .str (String.singleton c))
            else none
        | none => none
  | _, _ => none

/-- `Object.entries` for the value forms that can reach it (objects and
arrays; primitives give `[]`, and `null`/`undefined` — which would throw —
are ruled out by the validation that precedes every use). -/
def jsEntries : JValue → List (String × JValue)
  | .obj kvs => kvs
  | .arr xs => (xs.enum.map fun p => (natKeyStr p.1, p.2))
  | _ => []

/-- Own enumerable keys, as used by `Object.keys` in `convertToCSV`. -/
def jsKeys (v : JValue) : List String := (jsEntries v).map Prod.fst

/-- Assignment `result[key] = value` on an object: overwrites in place if the
key exists (keeping its position), otherwise appends. -/
def jsSetKeyKvs (kvs : List (String × JValue)) (k : String) (v : JValue) :
    List (String × JValue) :=
  if (kvs.map Prod.fst).contains k then
    kvs.map (fun kv => if kv.1 = k then (k, v) else kv)
  else kvs ++ [(k, v)]

/-- Assignment on a `JValue`; assigning a property to a primitive is a silent
no-op (sloppy-mode JS). -/
def jsSetKey : JValue → String → JValue → JValue
  | .obj kvs, k, v => .obj (jsSetKeyKvs kvs k v)
  | w, _, _ => w

/-- Property deletion `delete result[key]`. -/
def jsDelKey : JValue → String → JValue
  | .obj kvs, k => .obj (kvs.filter fun kv => kv.1 ≠ k)
  | w, _ => w

/-- Does the value have the own property (`hasOwnProperty`)? -/
def jsHasOwn (v : JValue) (k : String) : Bool :=
  (jsKeys v).contains k

/-- Is the value an array (`Array.isArray`)? -/
def jsIsArray : JValue → Bool
  | .arr _ => true
  | _ => false

/-- Length of the value if it is an array, 0 otherwise
(`Array.isArray(data) ? data.length : 0`). -/
def jsArrLength : JValue → Nat
  | .arr xs => xs.length
  | _ => 0

/-- Does `typeof v === 'object'` hold (arrays and `null` included)? -/
def jsTypeofObject : JValue → Bool
  | .obj _ => true
  | .arr _ => true
  | .null => true
  | _ => false

mutual
/-- Deep clone (`FunctionalUtils.deepClone`): primitives and functions are
returned as-is (JS `typeof obj !== 'object'`), arrays and objects are copied
recursively.  `Date` objects do not occur in the model. -/
def deepClone : JValue → JValue
  | .arr xs => .arr (deepCloneList xs)
  | .obj kvs => .obj (deepCloneObj kvs)
  | v => v

def deepCloneList : List JValue → List JValue
  | [] => []
  | x :: xs => deepClone x :: deepCloneList xs

def deepCloneObj : List (String × JValue) → List (String × JValue)
  | [] => []
  | kv :: rest => (kv.1, deepClone kv.2) :: deepCloneObj rest
end

mutual
/-- In a value model without object identity, deep cloning is the identity. -/
theorem deepClone_eq : ∀ v : JValue, deepClone v = v
  | .null => rfl
  | .bool _ => rfl
  | .num _ => rfl
  | .str _ => rfl
  | .func _ => rfl
  | .arr xs => by rw [deepClone, deepCloneList_eq]
  | .obj kvs => by rw [deepClone, deepCloneObj_eq]

theorem deepCloneList_eq : ∀ xs : List JValue, deepCloneList xs = xs
  | [] => rfl
  | x :: xs => by rw [deepCloneList, deepClone_eq, deepCloneList_eq]

theorem deepCloneObj_eq : ∀ kvs : List (String × JValue), deepCloneObj kvs = kvs
  | [] => rfl
  | kv :: rest => by rw [deepCloneObj, deepClone_eq, deepCloneObj_eq]
end

/-- `path.split('.')` over the character list.  Splitting the empty string
yields `[""]`, as in JS. -/
def splitDotAux : List Char → List Char → List String
  | [], acc => [String.mk acc.reverse]
  | c :: cs, acc =>
      if c = '.' then String.mk acc.reverse :: splitDotAux cs []
      else splitDotAux cs (c :: acc)

/-- `path.split('.')`. -/
def splitDot (path : String) : List String := splitDotAux path.data []

/-- `FunctionalUtils.getNestedProperty(obj, path, defaultValue)`: splits the
path on `.` and reduces; at each step, if the current value is truthy and has
the key, the walk continues on the property value, otherwise the accumulator
becomes `defaultValue` (and the remaining segments keep walking from there —
this mirrors the source's `reduce` exactly). -/
def getNestedProperty (obj : Option JValue) (path : String)
    (defaultValue : Option JValue) : Option JValue :=
  (splitDot path).foldl
    (fun current key =>
      if truthy current && (jsIndex current key).isSome then jsIndex current key
      else defaultValue)
    obj

mutual
/-- Structural deep equality (`BaseRule.deepEquals`), restricted to defined
values.  `func` symbols model function references: equal symbols are the
same function object (the `===` fast path); distinct function objects are
never deep-equal (typeof is `'function'`, not `'object'`). -/
def deepEquals : JValue → JValue → Bool
  | .null, .null => true
  | .bool a, .bool b => a == b
  | .num a, .num b => a == b
  | .str a, .str b => a == b
  | .func a, .func b => a == b
  | .arr xs, .arr ys => xs.length == ys.length && deepEqualsList xs ys
  | .obj kvs1, .obj kvs2 => kvs1.length == kvs2.length && deepEqualsObj kvs2 kvs1
  | _, _ => false

def deepEqualsList : List JValue → List JValue → Bool
  | [], _ => true
  | x :: xs, y :: ys => deepEquals x y && deepEqualsList xs ys
  | _ :: _, [] => false

def deepEqualsObj (kvs2 : List (String × JValue)) : List (String × JValue) → Bool
  | [] => true
  | kv :: rest =>
      ((kvs2.map Prod.fst).contains kv.1 &&
        (match jlookup kvs2 kv.1 with
         | some v2 => deepEquals kv.2 v2
         | none => false)) &&
      deepEqualsObj kvs2 rest
end

/-- Lifting of `deepEquals` to possibly-undefined values, following the
source's `==`/`===` prelude: two undefined values are equal, undefined never
equals a defined value (not even `null`). -/
def deepEqualsOpt : Option JValue → Option JValue → Bool
  | none, none => true
  | some a, some b => deepEquals a b
  | _, _ => false

/-- `BaseRule.matchesSingleCriterion`: AND over the criterion's entries,
each compared via `getNestedProperty` and `deepEquals`. -/
def matchesSingleCriterion (record : JValue) (criterion : JValue) : Bool :=
  (jsEntries criterion).all fun kv =>
    deepEqualsOpt (getNestedProperty (some record) kv.1 none) (some kv.2)

/-- `BaseRule.matchesRecord`: an array criteria spec is OR over its elements,
anything else is a single AND criterion. -/
def matchesRecord (record : JValue) (criteria : JValue) : Bool :=
  match criteria with
  | .arr cs => cs.any fun c => matchesSingleCriterion record c
  | c => matchesSingleCriterion record c

mutual
/-- JS `String(v)` conversion for a defined value.  Arrays stringify as their
elements joined by commas with `null` rendered empty; objects as
`[object Object]`; a function as a source-text stand-in. -/
def jsToStringV : JValue → String
  | .null => "null"
  | .bool b => if b then "true" else "false"
  | .num n => toString n
  | .str s => s
  | .func f => "function " ++ f
  | .obj _ => "[object Object]"
  | .arr xs => jsArrToString xs

/-- `Array.prototype.join(",")` as used by `String(array)`. -/
def jsArrToString : List JValue → String
  | [] => ""
  | [x] => (match x with | .null => "" | v => jsToStringV v)
  | x :: y :: xs =>
      (match x with | .null => "" | v => jsToStringV v) ++ "," ++ jsArrToString (y :: xs)
end

/-- JS `String(v)` including `undefined`. -/
def jsToString : Option JValue → String
  | none => "undefined"
  | some v => jsToStringV v

/-- Token of the collation model: a maximal (optionally `-`-signed) digit run
as its integer value, or a single lowercased character code. -/
inductive NToken where
  | num : Int → NToken
  | chr : Nat → NToken
  deriving DecidableEq

/-- Value of a digit run. -/
def digitsVal (ds : List Char) : Nat :=
  ds.foldl (fun acc c => acc * 10 + (c.toNat - ('0').toNat)) 0

theorem length_dropWhile_le (p : α → Bool) :
    ∀ l : List α, (l.dropWhile p).length ≤ l.length
  | [] => Nat.le_refl _
  | a :: l => by
      rw [List.dropWhile_cons]
      split
      · exact Nat.le_succ_of_le (length_dropWhile_le p l)
      · exact Nat.le_refl _

/-- Tokenization underlying the model of locale-aware, numeric,
case-insensitive comparison (`localeCompare` with `numeric: true`,
`sensitivity: 'base'`): digit runs (with an immediately preceding `-` sign)
become numbers, any other character becomes its lowercased code. -/
def tokenize : List Char → List NToken
  | [] => []
  | c :: cs =>
    if c.isDigit then
      .num (digitsVal ((c :: cs).takeWhile Char.isDigit)) ::
        tokenize (cs.dropWhile Char.isDigit)
    else if c = '-' && (match cs with | d :: _ => d.isDigit | [] => false) then
      .num (-(digitsVal (cs.takeWhile Char.isDigit))) ::
        tokenize (cs.dropWhile Char.isDigit)
    else
      .chr c.toLower.toNat :: tokenize cs
termination_by cs => cs.length
decreasing_by
  all_goals simp
  · exact Nat.lt_succ_of_le (length_dropWhile_le _ _)
  · exact Nat.lt_succ_of_le (length_dropWhile_le _ _)

/-- Model of `parseFloat`: the leading (optionally signed) digit run, `NaN`
(`none`) otherwise.  Fractional parts, exponents, leading whitespace and a
leading `+` are outside the integer model. -/
def jsParseFloat (s : String) : Option Int :=
  match tokenize s.data with
  | .num n :: _ => some n
  | _ => none

/-- Explicit three-way comparison on integers. -/
def intCmp (a b : Int) : Ordering :=
  if a < b then .lt else if a = b then .eq else .gt

/-- Explicit three-way comparison on naturals. -/
def natCmp (a b : Nat) : Ordering :=
  if a < b then .lt else if a = b then .eq else .gt

/-- Sign of an ordering as the integer returned by a JS comparator. -/
def ordToInt : Ordering → Int
  | .lt => -1
  | .eq => 0
  | .gt => 1

/-- Token comparison: numbers sort before other characters, numbers
numerically, characters by lowercased code. -/
def cmpTok : NToken → NToken → Ordering
  | .num a, .num b => intCmp a b
  | .num _, .chr _ => .lt
  | .chr _, .num _ => .gt
  | .chr a, .chr b => natCmp a b

/-- Lexicographic comparison of lists by an element comparison. -/
def lexOrdBy (f : β → β → Ordering) : List β → List β → Ordering
  | [], [] => .eq
  | [], _ :: _ => .lt
  | _ :: _, [] => .gt
  | a :: l1, b :: l2 => match f a b with | .eq => lexOrdBy f l1 l2 | o => o

/-- Model of `aStr.localeCompare(bStr, undefined, {numeric: true,
sensitivity: 'base'})`: lexicographic comparison of token lists. -/
def localeCompareModel (s t : String) : Int :=
  ordToInt (lexOrdBy cmpTok (tokenize s.data) (tokenize t.data))

/-- `FunctionalUtils.naturalSort`: stringify both values; if both parse as
numbers compare numerically (returning the difference), otherwise compare by
the locale model. -/
def naturalSort (a b : Option JValue) : Int :=
  let aStr := jsToString a
  let bStr := jsToString b
  match jsParseFloat aStr, jsParseFloat bStr with
  | some aNum, some bNum => aNum - bNum
  | _, _ => localeCompareModel aStr bStr

/-- `FunctionalUtils.multiKeyComparator`: first nonzero `naturalSort` result
over the key paths, each extracted with `getNestedProperty`. -/
def multiKeyComparator (keys : List String) (a b : JValue) : Int :=
  match keys with
  | [] => 0
  | k :: ks =>
      let r := naturalSort (getNestedProperty (some a) k none)
                           (getNestedProperty (some b) k none)
      if r ≠ 0 then r else multiKeyComparator ks a b

/-- One step of the stable-sort model of `Array.prototype.sort`: the new
element is placed before the first element it compares strictly less than
(so it lands after every earlier element that compares equal). -/
def insertCmp (cmp : α → α → Int) (x : α) : List α → List α
  | [] => [x]
  | y :: ys => if cmp x y < 0 then x :: y :: ys else y :: insertCmp cmp x ys

/-- Model of `[...array].sort(comparator)`: a stable insertion sort (the
ECMAScript sort is required to be stable). -/
def sortJs (cmp : α → α → Int) (l : List α) : List α :=
  l.foldl (fun acc x => insertCmp cmp x acc) []

theorem mem_insertCmp (cmp : α → α → Int) (x : α) :
    ∀ l z, z ∈ insertCmp cmp x l → z = x ∨ z ∈ l
  | [], z, h => by simpa [insertCmp] using h
  | y :: ys, z, h => by
      rw [insertCmp] at h
      by_cases hc : cmp x y < 0
      · rw [if_pos hc] at h
        exact List.mem_cons.mp h
      · rw [if_neg hc] at h
        rcases List.mem_cons.mp h with h1 | h1
        · exact Or.inr (by simp [h1])
        · rcases mem_insertCmp cmp x ys z h1 with h2 | h2
          · exact Or.inl h2
          · exact Or.inr (by simp [h2])

theorem insertCmp_perm (cmp : α → α → Int) (x : α) :
    ∀ l, List.Perm (insertCmp cmp x l) (x :: l)
  | [] => List.Perm.refl _
  | y :: ys => by
      rw [insertCmp]
      split
      · exact List.Perm.refl _
      · exact List.Perm.trans ((insertCmp_perm cmp x ys).cons y) (List.Perm.swap x y ys)

theorem sortJs_perm_aux (cmp : α → α → Int) :
    ∀ (l acc : List α), List.Perm (l.foldl (fun a x => insertCmp cmp x a) acc) (acc ++ l)
  | [], acc => by simp
  | x :: l, acc => by
      rw [List.foldl_cons]
      refine List.Perm.trans (sortJs_perm_aux cmp l (insertCmp cmp x acc)) ?h
      refine List.Perm.trans (List.Perm.append_right l (insertCmp_perm cmp x acc)) ?h2
      exact (List.perm_middle).symm

/-- The sort model returns a permutation of its input. -/
theorem sortJs_perm (cmp : α → α → Int) (l : List α) :
    List.Perm (sortJs cmp l) l := by
  simpa using sortJs_perm_aux cmp l []

/-- Comparator/key agreement: the comparator is induced by a key function
into a linearly ordered view, witnessed by an explicit three-way comparison
`kc` that is well-behaved.  `naturalSort`-based comparators satisfy this. -/
structure CmpKeyed (cmp : α → α → Int) (k : α → κ) (kc : κ → κ → Ordering) : Prop where
  agreeLt : ∀ a b, cmp a b < 0 ↔ kc (k a) (k b) = .lt
  agreeEq : ∀ a b, cmp a b = 0 ↔ kc (k a) (k b) = .eq
  kcSwap : ∀ x y, kc x y = (kc y x).swap
  kcEqIff : ∀ x y, (kc x y = .eq) ↔ x = y
  kcTransLt : ∀ x y z, kc x y = .lt → kc y z = .lt → kc x z = .lt

/-- Stability relation delivered by the sort: output pairs are strictly
increasing in (key, original tag) lexicographically. -/
def StabRel (k : α → κ) (kc : κ → κ → Ordering) (tag : α → Nat) (a b : α) : Prop :=
  kc (k a) (k b) = .lt ∨ (kc (k a) (k b) = .eq ∧ tag a < tag b)

theorem pairwise_insertCmp {cmp : α → α → Int} {k : α → κ} {kc : κ → κ → Ordering}
    (H : CmpKeyed cmp k kc) (tag : α → Nat) (x : α) :
    ∀ l : List α, l.Pairwise (StabRel k kc tag) → (∀ a ∈ l, tag a < tag x) →
      (insertCmp cmp x l).Pairwise (StabRel k kc tag)
  | [], _, _ => List.pairwise_singleton _ _
  | y :: ys, hp, ht => by
      rw [insertCmp]
      rcases List.pairwise_cons.mp hp with ⟨hy, hys⟩
      split
      · rename_i hlt
        have hxy : kc (k x) (k y) = .lt := (H.agreeLt x y).mp hlt
        refine List.pairwise_cons.mpr ⟨?ha, hp⟩
        intro z hz
        rcases List.mem_cons.mp hz with rfl | hz2
        · exact Or.inl hxy
        · rcases hy z hz2 with h | ⟨heq, _⟩
          · exact Or.inl (H.kcTransLt _ _ _ hxy h)
          · have : k y = k z := (H.kcEqIff _ _).mp heq
            exact Or.inl (this ▸ hxy)
      · rename_i hnlt
        have hxy : kc (k x) (k y) ≠ .lt := fun h => hnlt ((H.agreeLt x y).mpr h)
        refine List.pairwise_cons.mpr ⟨?hb, ?hc⟩
        · intro z hz
          rcases mem_insertCmp cmp x ys z hz with h1 | h1
          · rw [h1]
            cases hk : kc (k x) (k y) with
            | lt => exact absurd hk hxy
            | eq =>
                have hky : k x = k y := (H.kcEqIff _ _).mp hk
                refine Or.inr ⟨?hd, ht y (by simp)⟩
                rw [hky, (H.kcEqIff _ _)]
            | gt =>
                refine Or.inl ?he
                have hsw := H.kcSwap (k x) (k y)
                rw [hk] at hsw
                cases h2 : kc (k y) (k x) <;> rw [h2] at hsw <;>
                  simp [Ordering.swap] at hsw
          · exact hy z h1
        · exact pairwise_insertCmp H tag x ys hys
            (fun a ha => ht a (by simp [ha]))

theorem pairwise_sortJs_aux {cmp : α → α → Int} {k : α → κ} {kc : κ → κ → Ordering}
    (H : CmpKeyed cmp k kc) (tag : α → Nat) :
    ∀ (l acc : List α), acc.Pairwise (StabRel k kc tag) →
      (∀ a ∈ acc, ∀ b ∈ l, tag a < tag b) →
      l.Pairwise (fun a b => tag a < tag b) →
      (l.foldl (fun a x => insertCmp cmp x a) acc).Pairwise (StabRel k kc tag)
  | [], acc, hacc, _, _ => hacc
  | x :: l, acc, hacc, hcross, hl => by
      rw [List.foldl_cons]
      rcases List.pairwise_cons.mp hl with ⟨hx, hl2⟩
      refine pairwise_sortJs_aux H tag l (insertCmp cmp x acc) ?hacc2 ?hcross2 hl2
      · exact pairwise_insertCmp H tag x acc hacc
          (fun a ha => hcross a ha x (by simp))
      · intro a ha b hb
        rcases mem_insertCmp cmp x acc a ha with rfl | ha2
        · exact hx b hb
        · exact hcross a ha2 b (by simp [hb])

/-- Sorting a list whose tags strictly increase yields a list that is
pairwise strictly increasing in (key, tag): the sort is correct AND stable
for any comparator induced by a key. -/
theorem sortJs_pairwise_tagged {cmp : α → α → Int} {k : α → κ} {kc : κ → κ → Ordering}
    (H : CmpKeyed cmp k kc) (tag : α → Nat) (l : List α)
    (hl : l.Pairwise (fun a b => tag a < tag b)) :
    (sortJs cmp l).Pairwise (StabRel k kc tag) :=
  pairwise_sortJs_aux H tag l [] (List.Pairwise.nil) (by simp) hl

theorem insertCmp_map (f : β → α) (cmpA : α → α → Int) (cmpB : β → β → Int)
    (hf : ∀ p q, cmpB p q = cmpA (f p) (f q)) (x : β) :
    ∀ l : List β, (insertCmp cmpB x l).map f = insertCmp cmpA (f x) (l.map f)
  | [] => rfl
  | y :: ys => by
      rw [insertCmp, List.map_cons, insertCmp, ← hf x y]
      split
      · rfl
      · rw [List.map_cons, insertCmp_map f cmpA cmpB hf x ys]

theorem sortJs_map_aux (f : β → α) (cmpA : α → α → Int) (cmpB : β → β → Int)
    (hf : ∀ p q, cmpB p q = cmpA (f p) (f q)) :
    ∀ (l acc : List β),
      (l.foldl (fun a x => insertCmp cmpB x a) acc).map f
        = (l.map f).foldl (fun a x => insertCmp cmpA x a) (acc.map f)
  | [], acc => rfl
  | x :: l, acc => by
      rw [List.foldl_cons, List.map_cons, List.foldl_cons,
        sortJs_map_aux f cmpA cmpB hf l (insertCmp cmpB x acc),
        insertCmp_map f cmpA cmpB hf]

/-- Sorting commutes with projecting, when the comparator only looks at the
projection. -/
theorem sortJs_map (f : β → α) (cmpA : α → α → Int) (cmpB : β → β → Int)
    (hf : ∀ p q, cmpB p q = cmpA (f p) (f q)) (l : List β) :
    (sortJs cmpB l).map f = sortJs cmpA (l.map f) := by
  simpa using sortJs_map_aux f cmpA cmpB hf l []

theorem intCmp_lt_iff (a b : Int) : intCmp a b = .lt ↔ a < b := by
  unfold intCmp
  split
  · simp_all
  · split <;> simp_all

theorem intCmp_eq_iff (a b : Int) : intCmp a b = .eq ↔ a = b := by
  unfold intCmp
  split
  · simp_all
    omega
  · split <;> simp_all

theorem intCmp_swap (a b : Int) : intCmp a b = (intCmp b a).swap := by
  unfold intCmp
  rcases lt_trichotomy a b with h | h | h
  · rw [if_pos h, if_neg (by omega : ¬ b < a), if_neg (by omega : ¬ b = a)]
    rfl
  · rw [if_neg (by omega : ¬ a < b), if_pos h, if_neg (by omega : ¬ b < a),
      if_pos (by omega : b = a)]
    rfl
  · rw [if_neg (by omega : ¬ a < b), if_neg (by omega : ¬ a = b), if_pos h]
    rfl

theorem intCmp_trans (a b c : Int) (h1 : intCmp a b = .lt) (h2 : intCmp b c = .lt) :
    intCmp a c = .lt := by
  rw [intCmp_lt_iff] at h1 h2 ⊢
  omega

theorem natCmp_lt_iff (a b : Nat) : natCmp a b = .lt ↔ a < b := by
  unfold natCmp
  split
  · simp_all
  · split <;> simp_all

theorem natCmp_eq_iff (a b : Nat) : natCmp a b = .eq ↔ a = b := by
  unfold natCmp
  split
  · simp_all
    omega
  · split <;> simp_all

theorem natCmp_swap (a b : Nat) : natCmp a b = (natCmp b a).swap := by
  unfold natCmp
  rcases lt_trichotomy a b with h | h | h
  · rw [if_pos h, if_neg (by omega : ¬ b < a), if_neg (by omega : ¬ b = a)]
    rfl
  · rw [if_neg (by omega : ¬ a < b), if_pos h, if_neg (by omega : ¬ b < a),
      if_pos (by omega : b = a)]
    rfl
  · rw [if_neg (by omega : ¬ a < b), if_neg (by omega : ¬ a = b), if_pos h]
    rfl

theorem cmpTok_swap (a b : NToken) : cmpTok a b = (cmpTok b a).swap := by
  cases a <;> cases b
  · exact intCmp_swap _ _
  · rfl
  · rfl
  · exact natCmp_swap _ _

theorem cmpTok_eq_iff (a b : NToken) : cmpTok a b = .eq ↔ a = b := by
  cases a <;> cases b <;>
    simp [cmpTok, intCmp_eq_iff, natCmp_eq_iff, Ordering.swap]

theorem cmpTok_trans (a b c : NToken) (h1 : cmpTok a b = .lt) (h2 : cmpTok b c = .lt) :
    cmpTok a c = .lt := by
  cases a <;> cases b <;> cases c <;> simp_all [cmpTok, intCmp_lt_iff, natCmp_lt_iff] <;> omega

theorem lexOrdBy_swap (f : β → β → Ordering) (hf : ∀ a b, f a b = (f b a).swap) :
    ∀ l1 l2, lexOrdBy f l1 l2 = (lexOrdBy f l2 l1).swap
  | [], [] => rfl
  | [], _ :: _ => rfl
  | _ :: _, [] => rfl
  | a :: l1, b :: l2 => by
      rw [lexOrdBy, lexOrdBy, hf a b]
      cases f b a <;> simp [Ordering.swap]
      exact lexOrdBy_swap f hf l1 l2

theorem lexOrdBy_eq_iff (f : β → β → Ordering) (hf : ∀ a b, f a b = .eq ↔ a = b) :
    ∀ l1 l2, lexOrdBy f l1 l2 = .eq ↔ l1 = l2
  | [], [] => by simp [lexOrdBy]
  | [], _ :: _ => by simp [lexOrdBy]
  | _ :: _, [] => by simp [lexOrdBy]
  | a :: l1, b :: l2 => by
      rw [lexOrdBy]
      cases hab : f a b with
      | eq =>
          have hab2 : a = b := (hf a b).mp hab
          simp [hab2, lexOrdBy_eq_iff f hf l1 l2]
      | lt =>
          simp only [List.cons.injEq]
          constructor
          · intro h
            exact absurd h (by simp)
          · rintro ⟨h1, _⟩
            rw [h1] at hab
            rw [(hf b b).mpr rfl] at hab
            exact absurd hab (by simp)
      | gt =>
          simp only [List.cons.injEq]
          constructor
          · intro h
            exact absurd h (by simp)
          · rintro ⟨h1, _⟩
            rw [h1] at hab
            rw [(hf b b).mpr rfl] at hab
            exact absurd hab (by simp)

theorem lexOrdBy_trans (f : β → β → Ordering) (hfeq : ∀ a b, f a b = .eq ↔ a = b)
    (hftr : ∀ a b c, f a b = .lt → f b c = .lt → f a c = .lt) :
    ∀ l1 l2 l3, lexOrdBy f l1 l2 = .lt → lexOrdBy f l2 l3 = .lt → lexOrdBy f l1 l3 = .lt
  | l1, [], l3, h1, h2 => by
      cases l1 <;> simp_all [lexOrdBy]
  | [], b :: l2, l3, h1, h2 => by
      cases l3 with
      | nil => simp [lexOrdBy] at h2
      | cons c l3t => simp [lexOrdBy]
  | a :: l1, b :: l2, l3, h1, h2 => by
      cases l3 with
      | nil => simp [lexOrdBy] at h2
      | cons c l3t =>
          rw [lexOrdBy] at h1 h2 ⊢
          cases hab : f a b with
          | gt => rw [hab] at h1; simp at h1
          | lt =>
              cases hbc : f b c with
              | gt => rw [hbc] at h2; simp at h2
              | lt => rw [hftr a b c hab hbc]
              | eq =>
                  have : b = c := (hfeq b c).mp hbc
                  rw [← this, hab]
          | eq =>
              have hab2 : a = b := (hfeq a b).mp hab
              cases hbc : f b c with
              | gt => rw [hbc] at h2; simp at h2
              | lt => rw [hab2, hbc]
              | eq =>
                  rw [hab2, hbc]
                  rw [hab] at h1
                  rw [hbc] at h2
                  exact lexOrdBy_trans f hfeq hftr l1 l2 l3t h1 h2

/-- Order-relevant view of a token list: a number-led list is classified by
its leading number (`naturalSort` compares two parsing strings numerically),
anything else by the whole token list. -/
inductive KView where
  | numLed : Int → KView
  | other : List NToken → KView

/-- View of a token list. -/
def viewOf : List NToken → KView
  | .num n :: _ => .numLed n
  | c => .other c

/-- Three-way comparison of views, matching how `naturalSort` relates the
underlying strings: two number-led lists compare by value; a number-led list
against a non-number-led one is decided by the first token (any number sorts
before any character, and after the empty list). -/
def cmpView : KView → KView → Ordering
  | .numLed a, .numLed b => intCmp a b
  | .numLed _, .other c => if c.isEmpty then .gt else .lt
  | .other c, .numLed _ => if c.isEmpty then .lt else .gt
  | .other c1, .other c2 => lexOrdBy cmpTok c1 c2

theorem cmpView_swap (x y : KView) : cmpView x y = (cmpView y x).swap := by
  cases x with
  | numLed a =>
      cases y with
      | numLed b => exact intCmp_swap a b
      | other c => cases c <;> rfl
  | other c =>
      cases y with
      | numLed b => cases c <;> rfl
      | other c2 => exact lexOrdBy_swap cmpTok cmpTok_swap c c2

theorem cmpView_eq_iff (x y : KView) : cmpView x y = .eq ↔ x = y := by
  cases x with
  | numLed a =>
      cases y with
      | numLed b => simp [cmpView, intCmp_eq_iff]
      | other c => cases c <;> simp [cmpView]
  | other c =>
      cases y with
      | numLed b => cases c <;> simp [cmpView]
      | other c2 => simp [cmpView, lexOrdBy_eq_iff cmpTok cmpTok_eq_iff]

theorem cmpView_trans (x y z : KView) (h1 : cmpView x y = .lt) (h2 : cmpView y z = .lt) :
    cmpView x z = .lt := by
  cases x with
  | numLed a =>
      cases y with
      | numLed b =>
          cases z with
          | numLed c => exact intCmp_trans a b c h1 h2
          | other c =>
              simp only [cmpView] at h2 ⊢
              rcases hc : c with _ | ⟨t, ct⟩
              · rw [hc] at h2
                simp at h2
              · simp
      | other cy =>
          simp only [cmpView] at h1
          rcases hcy : cy with _ | ⟨t, cyt⟩
          · rw [hcy] at h1
            simp at h1
          · cases z with
            | numLed c =>
                rw [hcy] at h2
                simp only [cmpView] at h2
                simp at h2
            | other cz =>
                rw [hcy] at h2
                simp only [cmpView] at h2 ⊢
                rcases hcz : cz with _ | ⟨u, czt⟩
                · rw [hcz] at h2
                  cases t <;> simp [lexOrdBy] at h2
                · simp
  | other cx =>
      cases y with
      | numLed b =>
          simp only [cmpView] at h1
          rcases hcx : cx with _ | ⟨t, cxt⟩
          · cases z with
            | numLed c => simp [cmpView]
            | other cz =>
                simp only [cmpView] at h2 ⊢
                rcases hcz : cz with _ | ⟨u, czt⟩
                · rw [hcz] at h2
                  simp at h2
                · simp [lexOrdBy]
          · rw [hcx] at h1
            simp at h1
      | other cy =>
          cases z with
          | numLed c =>
              simp only [cmpView] at h2 ⊢
              rcases hcy : cy with _ | ⟨t, cyt⟩
              · rw [hcy] at h1
                cases cx <;> simp [cmpView, lexOrdBy] at h1
              · rw [hcy] at h2
                simp at h2
          | other cz =>
              simp only [cmpView] at h1 h2 ⊢
              exact lexOrdBy_trans cmpTok cmpTok_eq_iff cmpTok_trans cx cy cz h1 h2

theorem ordToInt_neg_iff (o : Ordering) : ordToInt o < 0 ↔ o = .lt := by
  cases o <;> simp [ordToInt]

theorem ordToInt_zero_iff (o : Ordering) : ordToInt o = 0 ↔ o = .eq := by
  cases o <;> simp [ordToInt]

/-- Key of a value for `naturalSort`: the view of the token list of its
string form. -/
def natSortKey (v : Option JValue) : KView :=
  viewOf (tokenize (jsToString v).data)

/-- `naturalSort` agrees (in sign) with `cmpView` on the keys. -/
theorem naturalSort_agree (a b : Option JValue) :
    ((naturalSort a b < 0) ↔ cmpView (natSortKey a) (natSortKey b) = .lt)
  ∧ ((naturalSort a b = 0) ↔ cmpView (natSortKey a) (natSortKey b) = .eq) := by
  unfold naturalSort natSortKey jsParseFloat localeCompareModel
  rcases ha : tokenize (jsToString a).data with _ | ⟨ta, ca⟩ <;>
    rcases hb : tokenize (jsToString b).data with _ | ⟨tb, cb⟩
  · simp [ha, hb, viewOf, cmpView, lexOrdBy, ordToInt]
  · cases tb <;> simp [ha, hb, viewOf, cmpView, lexOrdBy, ordToInt, cmpTok]
  · cases ta <;> simp [ha, hb, viewOf, cmpView, lexOrdBy, ordToInt, cmpTok]
  · cases ta <;> cases tb
    · simp [ha, hb, viewOf, cmpView, intCmp_lt_iff, intCmp_eq_iff]
      omega
    · simp [ha, hb, viewOf, cmpView, lexOrdBy, ordToInt, cmpTok]
    · simp [ha, hb, viewOf, cmpView, lexOrdBy, ordToInt, cmpTok]
    · simp [ha, hb, viewOf, cmpView, ordToInt_neg_iff, ordToInt_zero_iff]

/-- Key list of a record under the sort keys: one view per key path. -/
def mkSortKey (keys : List String) (r : JValue) : List KView :=
  keys.map fun k => natSortKey (getNestedProperty (some r) k none)

/-- `multiKeyComparator` agrees (in sign) with the lexicographic comparison
of key lists. -/
theorem multiKey_agree (keys : List String) (a b : JValue) :
    ((multiKeyComparator keys a b < 0) ↔
      lexOrdBy cmpView (mkSortKey keys a) (mkSortKey keys b) = .lt)
  ∧ ((multiKeyComparator keys a b = 0) ↔
      lexOrdBy cmpView (mkSortKey keys a) (mkSortKey keys b) = .eq) := by
  induction keys with
  | nil => simp [multiKeyComparator, mkSortKey, lexOrdBy]
  | cons k ks ih =>
      have hag := naturalSort_agree (getNestedProperty (some a) k none)
        (getNestedProperty (some b) k none)
      rw [multiKeyComparator, mkSortKey, mkSortKey, List.map_cons, List.map_cons, lexOrdBy]
      rcases lt_trichotomy (naturalSort (getNestedProperty (some a) k none)
        (getNestedProperty (some b) k none)) 0 with hr | hr | hr
      · rw [hag.1.mp hr]
        rw [if_pos (by omega)]
        simp only []
        constructor
        · simp [hr]
        · constructor <;> intro h2 <;> [omega; simp at h2]
      · rw [hag.2.mp hr]
        rw [if_neg (by omega)]
        simp only []
        exact ⟨(ih.1.trans (by rw [mkSortKey, mkSortKey])),
               (ih.2.trans (by rw [mkSortKey, mkSortKey]))⟩
      · have hne1 : cmpView (natSortKey (getNestedProperty (some a) k none))
            (natSortKey (getNestedProperty (some b) k none)) ≠ .lt := by
          intro h
          have := hag.1.mpr h
          omega
        have hne2 : cmpView (natSortKey (getNestedProperty (some a) k none))
            (natSortKey (getNestedProperty (some b) k none)) ≠ .eq := by
          intro h
          have := hag.2.mpr h
          omega
        have hgt : cmpView (natSortKey (getNestedProperty (some a) k none))
            (natSortKey (getNestedProperty (some b) k none)) = .gt := by
          cases h : cmpView (natSortKey (getNestedProperty (some a) k none))
            (natSortKey (getNestedProperty (some b) k none))
          · exact absurd h hne1
          · exact absurd h hne2
          · rfl
        rw [hgt]
        rw [if_pos (by omega)]
        simp only []
        constructor
        · constructor <;> intro h2 <;> [omega; simp at h2]
        · constructor <;> intro h2 <;> [omega; simp at h2]

/-- The multi-key comparator is induced by the key-list view: the bundle of
facts the stability proof needs. -/
theorem multiKey_cmpKeyed (keys : List String) :
    CmpKeyed (multiKeyComparator keys) (mkSortKey keys) (lexOrdBy cmpView) := by
  constructor
  · exact fun a b => (multiKey_agree keys a b).1
  · exact fun a b => (multiKey_agree keys a b).2
  · exact lexOrdBy_swap cmpView cmpView_swap
  · exact lexOrdBy_eq_iff cmpView cmpView_eq_iff
  · exact lexOrdBy_trans cmpView cmpView_eq_iff cmpView_trans

theorem enumFrom_fst_ge : ∀ (l : List α) (n : Nat) (p : Nat × α),
    p ∈ List.enumFrom n l → n ≤ p.1
  | [], _, _, h => by simp [List.enumFrom] at h
  | x :: l, n, p, h => by
      rw [List.enumFrom] at h
      rcases List.mem_cons.mp h with h1 | h1
      · rw [h1]
      · have := enumFrom_fst_ge l (n + 1) p h1
        omega

theorem enumFrom_pairwise_fst : ∀ (l : List α) (n : Nat),
    (List.enumFrom n l).Pairwise (fun p q => p.1 < q.1)
  | [], _ => List.Pairwise.nil
  | x :: l, n => by
      rw [List.enumFrom]
      refine List.pairwise_cons.mpr ⟨?hh, enumFrom_pairwise_fst l (n + 1)⟩
      intro p hp
      have := enumFrom_fst_ge l (n + 1) p hp
      simp
      omega

theorem enum_pairwise_fst (l : List α) : l.enum.Pairwise (fun p q => p.1 < q.1) :=
  enumFrom_pairwise_fst l 0

/-- `array.slice(n)`: drop `n` from the front, counting from the end when
negative. -/
def jsSliceFrom (n : Int) (l : List α) : List α :=
  if n < 0 then l.drop (l.length - (-n).toNat) else l.drop n.toNat

/-- `array.slice(0, n)`: take `n` from the front, counting from the end when
negative. -/
def jsSliceTo (n : Int) (l : List α) : List α :=
  if n < 0 then l.take (l.length - (-n).toNat) else l.take n.toNat

/-- `FunctionalUtils.take`: `array.slice(0, n)`; an undefined bound copies
the whole array. -/
def FunctionalUtils.take (n : Option Int) (l : List α) : List α :=
  match n with
  | some m => jsSliceTo m l
  | none => l

/-- `FunctionalUtils.skip`: `array.slice(n)`. -/
def FunctionalUtils.skip (n : Int) (l : List α) : List α := jsSliceFrom n l

/-- `FunctionalUtils.sort`: `[...array].sort(comparator)`. -/
def FunctionalUtils.sortBy (cmp : α → α → Int) (l : List α) : List α := sortJs cmp l

/-- Result of a rule's `validate`. -/
structure ValidationResult where
  isValid : Bool
  errors : List String
  warnings : List String

/-- `BaseRule.validateCriteriaConfig`: shared validation of Include/Exclude
criteria specs. -/
def validateCriteriaConfig (config : JValue) (ruleName : String) : ValidationResult :=
  let ew : List String × List String :=
    if truthy (some config) = false then
      ([ruleName ++ " rule requires configuration"], [])
    else
      match config with
      | .arr items =>
          (items.enum.filterMap (fun p =>
              match p.2 with
              | .obj _ => none
              | .arr _ => none
              | _ => some (ruleName ++ " rule criteria[" ++ natKeyStr p.1 ++
                  "] must be an object")),
           if items.isEmpty then [ruleName ++ " rule has empty criteria array"] else [])
      | .obj kvs =>
          ([], if kvs.isEmpty then [ruleName ++ " rule has empty criteria object"] else [])
      | _ => ([ruleName ++ " rule configuration must be an array or object"], [])
  ⟨ew.1.isEmpty, ew.1, ew.2⟩

/-- Fixed priority of the Include rule. -/
def IncludeRule.priority : Int := 1

/-- `IncludeRule.validate`. -/
def IncludeRule.validate (config : JValue) : ValidationResult :=
  validateCriteriaConfig config "Include"

/-- `IncludeRule.execute`: keep exactly the records matching the criteria.
(The data argument is typed as a list; the `Array.isArray` throw for
non-array data is handled at the `processData` boundary.) -/
def IncludeRule.execute (data : List JValue) (config : JValue) : List JValue :=
  data.filter fun record => matchesRecord record config

/-- Fixed priority of the Exclude rule. -/
def ExcludeRule.priority : Int := 2

/-- `ExcludeRule.validate`. -/
def ExcludeRule.validate (config : JValue) : ValidationResult :=
  validateCriteriaConfig config "Exclude"

/-- `ExcludeRule.execute`: keep exactly the records NOT matching the
criteria. -/
def ExcludeRule.execute (data : List JValue) (config : JValue) : List JValue :=
  data.filter fun record => !(matchesRecord record config)

/-- Fixed priority of the Sort rule. -/
def SortRule.priority : Int := 10

/-- `SortRule.validate`. -/
def SortRule.validate (config : JValue) : ValidationResult :=
  let ew : List String × List String :=
    if truthy (some config) = false then (["Sort rule requires configuration"], [])
    else
      match config with
      | .str s => (if s.trim = "" then ["Sort rule key cannot be empty"] else [], [])
      | .arr keys =>
          (keys.enum.filterMap (fun p =>
              match p.2 with
              | .str s =>
                  if s.trim = "" then
                    some ("Sort rule key[" ++ natKeyStr p.1 ++ "] cannot be empty")
                  else none
              | _ => some ("Sort rule key[" ++ natKeyStr p.1 ++ "] must be a string")),
           if keys.isEmpty then ["Sort rule has empty keys array"] else [])
      | _ => (["Sort rule configuration must be a string or array of strings"], [])
  ⟨ew.1.isEmpty, ew.1, ew.2⟩

/-- Sort keys of a config: `Array.isArray(config) ? config : [config]`.
`validate` guarantees all keys are strings; a non-string key (whose
`key.split` would throw in JS) is mapped to the empty path and a non-string,
non-array config to no keys — both unreachable after validation. -/
def sortKeysOf (config : JValue) : List String :=
  match config with
  | .arr keys => keys.map fun k => match k with | .str s => s | _ => ""
  | .str s => [s]
  | _ => []

/-- `SortRule.execute`: a new array sorted by the multi-key natural
comparator. -/
def SortRule.execute (data : List JValue) (config : JValue) : List JValue :=
  FunctionalUtils.sortBy (multiKeyComparator (sortKeysOf config)) data

/-- Fixed priority of the Limit rule. -/
def LimitRule.priority : Int := 20

/-- `LimitRule.validate`.  Numbers are integers in the model, so the
`Number.isInteger` rejection of fractional counts is not representable. -/
def LimitRule.validate (config : JValue) : ValidationResult :=
  let ew : List String × List String :=
    match config with
    | .null => (["Limit rule requires configuration"], [])
    | .num n =>
        (if n < 0 then ["Limit rule count must be a non-negative integer"] else [],
         if n = 0 then ["Limit rule count is 0, will return empty result"] else [])
    | .obj _ | .arr _ =>
        let count := jsIndex (some config) "count"
        let offset := jsIndex (some config) "offset"
        let e1 : List String :=
          match count with
          | none => ["Limit rule object must have count property"]
          | some .null => ["Limit rule object must have count property"]
          | some (.num n) =>
              if n < 0 then ["Limit rule count must be a non-negative integer"] else []
          | some _ => ["Limit rule count must be a non-negative integer"]
        let e2 : List String :=
          match offset with
          | none => []
          | some .null => []
          | some (.num n) =>
              if n < 0 then ["Limit rule offset must be a non-negative integer"] else []
          | some _ => ["Limit rule offset must be a non-negative integer"]
        let w : List String :=
          match count with
          | some (.num 0) => ["Limit rule count is 0, will return empty result"]
          | _ => []
        (e1 ++ e2, w)
    | _ => (["Limit rule configuration must be a number or object with count/offset"], [])
  ⟨ew.1.isEmpty, ew.1, ew.2⟩

/-- `LimitRule.execute`: `pipe(skip(offset), take(count))`.  A `null` config
would throw on property access in JS but is rejected by validation; a
non-numeric count/offset (which `slice` would coerce) is likewise rejected
and modelled as undefined / 0. -/
def LimitRule.execute (data : List JValue) (config : JValue) : List JValue :=
  let co : Option Int × Int :=
    match config with
    | .num n => (some n, 0)
    | c =>
        let cv := jsIndex (some c) "count"
        let ov := jsIndex (some c) "offset"
        ((match cv with | some (.num n) => some n | _ => none),
         (if truthy ov then match ov with | some (.num n) => n | _ => 0 else 0))
  FunctionalUtils.take co.1 (FunctionalUtils.skip co.2 data)

/-- Fixed priority of the Transform rule. -/
def TransformRule.priority : Int := 15

/-- Errors for the entries of a `computed` object: each value must be a
function or a string template. -/
def transformComputedErrors (kvs : List (String × JValue)) : List String :=
  kvs.filterMap fun kv =>
    match kv.2 with
    | .func _ => none
    | .str _ => none
    | _ => some ("Transform rule computed." ++ kv.1 ++
        " must be a function or string expression")

/-- `TransformRule.validate`. -/
def TransformRule.validate (config : JValue) : ValidationResult :=
  if truthy (some config) = false || jsTypeofObject config = false then
    ⟨false, ["Transform rule requires configuration object"], []⟩
  else
    let fv := jsIndex (some config) "fields"
    let cv := jsIndex (some config) "computed"
    let rv := jsIndex (some config) "rename"
    let e1 : List String :=
      match fv with
      | none => []
      | some .null => []
      | some (.arr fs) =>
          fs.enum.filterMap fun p =>
            match p.2 with
            | .str _ => none
            | _ => some ("Transform rule fields[" ++ natKeyStr p.1 ++ "] must be a string")
      | some _ => ["Transform rule fields must be an array"]
    let e2 : List String :=
      match cv with
      | none => []
      | some .null => []
      | some (.obj kvs) => transformComputedErrors kvs
      | some (.arr xs) => transformComputedErrors (jsEntries (.arr xs))
      | some _ => ["Transform rule computed must be an object"]
    let e3 : List String :=
      match rv with
      | none => []
      | some .null => []
      | some (.obj _) => []
      | some (.arr _) => []
      | some _ => ["Transform rule rename must be an object"]
    let errors := e1 ++ e2 ++ e3
    ⟨errors.isEmpty, errors, []⟩

/-- Substitution of one `{{path}}` occurrence: the string form of the
resolved nested value of the record, empty when null or undefined. -/
def templateSubst (record : JValue) (inner : List Char) : List Char :=
  match getNestedProperty (some record) (String.mk inner).trim none with
  | none => []
  | some .null => []
  | some v => (jsToStringV v).data

/-- Left-to-right scan of `template.replace(/\x7b\x7b([^\x7d]+)\x7d\x7d/g, ...)`:
a `\x7b\x7b` followed by a nonempty `\x7d`-free path and `\x7d\x7d` is
replaced; anything else is copied and the scan moves on by one character,
exactly as the global regex does. -/
def evalTemplateChars (record : JValue) : List Char → List Char
  | [] => []
  | '{' :: '{' :: rest =>
      let inner := rest.takeWhile (fun c => c ≠ '}')
      if hin : inner.isEmpty then '{' :: evalTemplateChars record ('{' :: rest)
      else
        match hafter : rest.drop inner.length with
        | '}' :: '}' :: rest2 => templateSubst record inner ++ evalTemplateChars record rest2
        | _ => '{' :: evalTemplateChars record ('{' :: rest)
  | c :: rest => c :: evalTemplateChars record rest
termination_by cs => cs.length
decreasing_by
  all_goals first
    | (have h1 := congrArg List.length hafter
       simp at h1
       simp
       omega)
    | simp

/-- `TransformRule.evaluateStringTemplate`. -/
def TransformRule.evaluateStringTemplate (template : String) (record : JValue) : String :=
  String.mk (evalTemplateChars record template.data)

/-- The `fields` narrowing: build a fresh object holding only the listed
paths resolved against the record, skipping paths that resolve to undefined
(the body of the `fields` forEach).  `validate` guarantees the config is an
array of strings. -/
def fieldsNarrow (record : JValue) (fv : JValue) : List (String × JValue) :=
  (match fv with | .arr fs => fs | _ => ([] : List JValue)).foldl
    (fun (acc : List (String × JValue)) (f : JValue) =>
      match f with
      | .str field =>
          (match getNestedProperty (some record) field none with
           | some v => jsSetKeyKvs acc field v
           | none => acc)
      | _ => acc)
    []

/-- One `computed` entry applied to the accumulating record (the body of
the `forEach` over `Object.entries(config.computed)`): a function value is
invoked with the record and a throw is caught by storing null; a string
value is evaluated as a template; any other value is rejected by validation
and modelled as a no-op. -/
def computedStep (env : FnEnv) (record : JValue) (acc : JValue)
    (kc : String × JValue) : JValue :=
  match kc.2 with
  | .func fname =>
      (match env fname record with
       | .ok v => jsSetKey acc kc.1 v
       | .error _ => jsSetKey acc kc.1 .null)
  | .str tmpl =>
      jsSetKey acc kc.1 (.str (TransformRule.evaluateStringTemplate tmpl record))
  | _ => acc

/-- `TransformRule.transformRecord`: clone; if `fields` is truthy, narrow to
the listed paths (omitting ones that resolve to undefined); add computed
fields, invoking functions on the ORIGINAL record and catching throws by
storing null; finally apply renames (move the value and delete the old
key).  A computed entry that is neither function nor string is rejected by
validation and modelled as a no-op. -/
def TransformRule.transformRecord (env : FnEnv) (record : JValue) (config : JValue) :
    JValue :=
  let result0 := deepClone record
  let fv := jsIndex (some config) "fields"
  let result1 : JValue :=
    if truthy fv then .obj (fieldsNarrow record (fv.getD .null))
    else result0
  let cv := jsIndex (some config) "computed"
  let result2 :=
    if truthy cv then
      (match cv with | some c => jsEntries c | none => []).foldl
        (computedStep env record) result1
    else result1
  let rv := jsIndex (some config) "rename"
  if truthy rv then
    (match rv with | some c => jsEntries c | none => []).foldl
      (fun (acc : JValue) (kn : String × JValue) =>
        if jsHasOwn acc kn.1 then
          match jsIndex (some acc) kn.1 with
          | some v => jsDelKey (jsSetKey acc (jsToStringV kn.2) v) kn.1
          | none => jsDelKey acc kn.1
        else acc)
      result2
  else result2

/-- `TransformRule.execute`: map `transformRecord` over the records. -/
def TransformRule.execute (env : FnEnv) (data : List JValue) (config : JValue) :
    List JValue :=
  data.map fun record => TransformRule.transformRecord env record config

/-- Registered rule types of the populated registry (the five built-in rules
after `autoRegisterRules`). -/
def RuleRegistry.hasRule (t : String) : Bool :=
  t == "include" || t == "exclude" || t == "sortBy" || t == "transform" || t == "limit"

/-- Priority of a registered rule (`getRule(type).priority`). -/
def RuleRegistry.getPriority : String → Int
  | "include" => 1
  | "exclude" => 2
  | "sortBy" => 10
  | "transform" => 15
  | "limit" => 20
  | _ => 0

/-- Dispatch of `rule.validate(config)`. -/
def RuleRegistry.validateRule (t : String) (config : JValue) : ValidationResult :=
  if t = "include" then IncludeRule.validate config
  else if t = "exclude" then ExcludeRule.validate config
  else if t = "sortBy" then SortRule.validate config
  else if t = "transform" then TransformRule.validate config
  else if t = "limit" then LimitRule.validate config
  else ⟨true, [], []⟩

/-- Dispatch of `rule.execute(data, config)` for the five built-in rules
(each total in the model on validated configs). -/
def RuleRegistry.runRule (env : FnEnv) (t : String) (data : List JValue)
    (config : JValue) : List JValue :=
  if t = "include" then IncludeRule.execute data config
  else if t = "exclude" then ExcludeRule.execute data config
  else if t = "sortBy" then SortRule.execute data config
  else if t = "transform" then TransformRule.execute env data config
  else if t = "limit" then LimitRule.execute data config
  else data

/-- `RuleRegistry.executeRule`: throws (`Except.error`) for an unknown rule
type or a config that fails the rule's validation, otherwise executes. -/
def RuleRegistry.executeRule (env : FnEnv) (t : String) (data : List JValue)
    (config : JValue) : Except String (List JValue) :=
  if RuleRegistry.hasRule t = false then
    .error ("Rule type '" ++ t ++ "' is not registered")
  else
    let v := RuleRegistry.validateRule t config
    if v.isValid = false then
      .error ("Rule validation failed: " ++ String.intercalate ", " v.errors)
    else .ok (RuleRegistry.runRule env t data config)

/-- One entry of `metadata.appliedRules`: the source pushes
`{ type, config, priority }`. -/
structure AppliedRule where
  type : String
  config : JValue
  priority : Int

/-- The metadata of a `ProcessingResult`.  The source's field is named
`processingTime` (milliseconds); wall-clock timing is abstracted to 0. -/
structure ProcessingMetadata where
  inputCount : Nat
  outputCount : Nat
  processingTime : Nat
  appliedRules : List AppliedRule
  error : Option String

/-- `ProcessingResult`: the output records plus metadata. -/
structure ProcessingResult where
  result : List JValue
  metadata : ProcessingMetadata

/-- Registered rule invocations of a condition
(`Object.entries(condition)` filtered to registered types), sorted ascending
by the rules' fixed priorities with the stable JS sort. -/
def DataProcessor.sortedRuleEntries (condition : JValue) : List (String × JValue) :=
  sortJs (fun a b => RuleRegistry.getPriority a.1 - RuleRegistry.getPriority b.1)
    ((jsEntries condition).filter fun e => RuleRegistry.hasRule e.1)

/-- The rule-execution loop of `processData`: each stage consumes the prior
stage's output and appends `{type, config, priority}` to the applied list; a
throwing stage aborts the whole loop with the wrapping message. -/
def DataProcessor.runRules (env : FnEnv) :
    List (String × JValue) → List JValue → List AppliedRule →
    Except String (List JValue × List AppliedRule)
  | [], result, applied => .ok (result, applied)
  | (t, config) :: rest, result, applied =>
      match RuleRegistry.executeRule env t result config with
      | .ok result2 =>
          DataProcessor.runRules env rest result2
            (applied ++ [⟨t, config, RuleRegistry.getPriority t⟩])
      | .error msg => .error ("Failed to execute " ++ t ++ " rule: " ++ msg)

/-- The fallible body of `processData` (the code inside its `try`): data
must be an array, the condition truthy with `typeof === 'object'`; the data
is deep-cloned before any stage runs. -/
def DataProcessor.processDataGo (env : FnEnv) (data condition : JValue) :
    Except String (List JValue × List AppliedRule) :=
  match data with
  | .arr records =>
      if truthy (some condition) && jsTypeofObject condition then
        DataProcessor.runRules env (DataProcessor.sortedRuleEntries condition)
          (deepCloneList records) []
      else .error "Condition must be an object"
  | _ => .error "Data must be an array"

/-- `DataProcessor.processData`: never throws across its boundary; a failure
produces an empty result with `metadata.error` and no applied rules. -/
def DataProcessor.processData (env : FnEnv) (data condition : JValue) :
    ProcessingResult :=
  match DataProcessor.processDataGo env data condition with
  | .ok (result, applied) =>
      ⟨result, ⟨jsArrLength data, result.length, 0, applied, none⟩⟩
  | .error msg =>
      ⟨[], ⟨jsArrLength data, 0, 0, [], some msg⟩⟩

/-- Union of field names across the records, in first-seen order (`Set`
insertion order); records that are not non-null objects contribute none
(arrays count as objects, with index keys). -/
def DataProcessor.collectFields (data : List JValue) : List String :=
  data.foldl
    (fun acc r =>
      match r with
      | .obj _ => (jsKeys r).foldl (fun a k => if a.contains k then a else a ++ [k]) acc
      | .arr _ => (jsKeys r).foldl (fun a k => if a.contains k then a else a ++ [k]) acc
      | _ => acc)
    []

/-- `String(value).replace(/"/g, '""')`: double every double quote. -/
def escapeQuotes (s : String) : String :=
  String.mk (s.data.foldr (fun c acc => if c = '"' then '"' :: '"' :: acc else c :: acc) [])

/-- `DataProcessor.convertToCSV`: a quoted (unescaped) header of the field
union, then one row per record with each cell double-quoted, `null` /
missing values rendered `""` and embedded quotes doubled. -/
def DataProcessor.convertToCSV (data : List JValue) (delimiter : String) : String :=
  if data.isEmpty then ""
  else
    let fieldNames := DataProcessor.collectFields data
    let header := String.intercalate delimiter (fieldNames.map fun f => "\"" ++ f ++ "\"")
    let rows := data.map fun record =>
      String.intercalate delimiter (fieldNames.map fun f =>
        match jsIndex (some record) f with
        | none => "\"\""
        | some .null => "\"\""
        | some v => "\"" ++ escapeQuotes (jsToStringV v) ++ "\"")
    String.intercalate "\n" (header :: rows)

/-- One JSON string escape (the basic set; exotic control characters do not
occur in the model). -/
def jsonEscapeChar (c : Char) : String :=
  if c = '"' then "\\\""
  else if c = '\\' then "\\\\"
  else if c = '\n' then "\\n"
  else if c = '\t' then "\\t"
  else if c = '\r' then "\\r"
  else String.singleton c

/-- JSON string quoting. -/
def jsonQuote (s : String) : String :=
  "\"" ++ String.join (s.data.map jsonEscapeChar) ++ "\""

mutual
/-- Model of `JSON.stringify(v, null, 2)` at an indentation prefix: `func`
has no JSON representation (omitted from objects, `null` inside arrays). -/
def jsonStr : JValue → String → Option String
  | .null, _ => some "null"
  | .bool b, _ => some (if b then "true" else "false")
  | .num n, _ => some (toString n)
  | .str s, _ => some (jsonQuote s)
  | .func _, _ => none
  | .arr xs, ind =>
      if xs.isEmpty then some "[]"
      else some ("[\n" ++
        String.intercalate ",\n" (jsonStrArr xs (ind ++ "  ")) ++ "\n" ++ ind ++ "]")
  | .obj kvs, ind =>
      if kvs.isEmpty then some "\x7b\x7d"
      else some ("\x7b\n" ++
        String.intercalate ",\n" (jsonStrObj kvs (ind ++ "  ")) ++ "\n" ++ ind ++ "\x7d")

def jsonStrArr : List JValue → String → List String
  | [], _ => []
  | x :: xs, ind => (ind ++ (jsonStr x ind).getD "null") :: jsonStrArr xs ind

def jsonStrObj : List (String × JValue) → String → List String
  | [], _ => []
  | kv :: rest, ind =>
      match jsonStr kv.2 ind with
      | some s => (ind ++ jsonQuote kv.1 ++ ": " ++ s) :: jsonStrObj rest ind
      | none => jsonStrObj rest ind
end

/-- The `ProcessingResult` as a JS value (for JSON export); the `error` key
is present only on failures. -/
def resultJValue (r : ProcessingResult) : JValue :=
  .obj [("result", .arr r.result),
        ("metadata", .obj (
          [("inputCount", .num r.metadata.inputCount),
           ("outputCount", .num r.metadata.outputCount),
           ("processingTime", .num r.metadata.processingTime),
           ("appliedRules", .arr (r.metadata.appliedRules.map fun a =>
              .obj [("type", .str a.type), ("config", a.config),
                    ("priority", .num a.priority)]))]
          ++ (match r.metadata.error with
              | some e => [("error", .str e)]
              | none => [])))]

/-- `format.toLowerCase()`. -/
def jsToLowerCase (s : String) : String := String.mk (s.data.map Char.toLower)

/-- `DataProcessor.exportResult`: JSON, CSV or TSV serialization; an
unsupported format throws. -/
def DataProcessor.exportResult (r : ProcessingResult) (format : String) :
    Except String String :=
  match jsToLowerCase format with
  | "json" => .ok ((jsonStr (resultJValue r) "").getD "")
  | "csv" => .ok (DataProcessor.convertToCSV r.result ",")
  | "tsv" => .ok (DataProcessor.convertToCSV r.result "\t")
  | _ => .error ("Unsupported export format: " ++ format)

/-- A criteria spec per the data model: a single criterion object (AND), or
an array of criterion objects (OR). -/
def isCriteriaSpec : JValue → Bool
  | .obj _ => true
  | .arr cs => cs.all fun c => match c with | .obj _ => true | _ => false
  | _ => false

/-- C3: for every record array and every criteria spec C, Include keeps
exactly the records where `matchesRecord` holds and Exclude exactly those
where it does not; as sets of records their outputs partition the data:
every record of the data is in Include's or Exclude's output, and no record
is in both. -/
theorem include_exclude_partition (data : List JValue) (C : JValue)
    (hC : isCriteriaSpec C = true) :
    IncludeRule.execute data C = data.filter (fun r => matchesRecord r C)
  ∧ ExcludeRule.execute data C = data.filter (fun r => !(matchesRecord r C))
  ∧ (∀ r, r ∈ data ↔
      (r ∈ IncludeRule.execute data C ∨ r ∈ ExcludeRule.execute data C))
  ∧ (∀ r, ¬(r ∈ IncludeRule.execute data C ∧ r ∈ ExcludeRule.execute data C)) := by
  refine ⟨rfl, rfl, ?h1, ?h2⟩
  · intro r
    simp only [IncludeRule.execute, ExcludeRule.execute, List.mem_filter]
    by_cases hm : matchesRecord r C = true <;> simp [hm]
  · intro r
    simp only [IncludeRule.execute, ExcludeRule.execute, List.mem_filter]
    by_cases hm : matchesRecord r C = true <;> simp [hm]

/-- Witness for C3 at a concrete data set and criteria spec. -/
theorem include_exclude_partition_witness :
    IncludeRule.execute
        [JValue.obj [("status", JValue.str "active")],
         JValue.obj [("status", JValue.str "inactive")]]
        (JValue.obj [("status", JValue.str "active")])
      = [JValue.obj [("status", JValue.str "active")],
         JValue.obj [("status", JValue.str "inactive")]].filter
          (fun r => matchesRecord r (JValue.obj [("status", JValue.str "active")]))
  ∧ ExcludeRule.execute
        [JValue.obj [("status", JValue.str "active")],
         JValue.obj [("status", JValue.str "inactive")]]
        (JValue.obj [("status", JValue.str "active")])
      = [JValue.obj [("status", JValue.str "active")],
         JValue.obj [("status", JValue.str "inactive")]].filter
          (fun r => !(matchesRecord r (JValue.obj [("status", JValue.str "active")])))
  ∧ (∀ r, r ∈ [JValue.obj [("status", JValue.str "active")],
               JValue.obj [("status", JValue.str "inactive")]] ↔
      (r ∈ IncludeRule.execute
          [JValue.obj [("status", JValue.str "active")],
           JValue.obj [("status", JValue.str "inactive")]]
          (JValue.obj [("status", JValue.str "active")]) ∨
       r ∈ ExcludeRule.execute
          [JValue.obj [("status", JValue.str "active")],
           JValue.obj [("status", JValue.str "inactive")]]
          (JValue.obj [("status", JValue.str "active")])))
  ∧ (∀ r, ¬(r ∈ IncludeRule.execute
          [JValue.obj [("status", JValue.str "active")],
           JValue.obj [("status", JValue.str "inactive")]]
          (JValue.obj [("status", JValue.str "active")]) ∧
       r ∈ ExcludeRule.execute
          [JValue.obj [("status", JValue.str "active")],
           JValue.obj [("status", JValue.str "inactive")]]
          (JValue.obj [("status", JValue.str "active")]))) :=
  include_exclude_partition
    [JValue.obj [("status", JValue.str "active")],
     JValue.obj [("status", JValue.str "inactive")]]
    (JValue.obj [("status", JValue.str "active")]) rfl

theorem jsSliceFrom_ofNat (n : Nat) (l : List α) :
    jsSliceFrom (n : Int) l = l.drop n := by
  rw [jsSliceFrom, if_neg (by omega)]
  simp

theorem jsSliceTo_ofNat (n : Nat) (l : List α) :
    jsSliceTo (n : Int) l = l.take n := by
  rw [jsSliceTo, if_neg (by omega)]
  simp

theorem jsSliceFrom_zero (l : List α) : jsSliceFrom 0 l = l := by
  rw [jsSliceFrom, if_neg (by omega)]
  simp

/-- Count 0 always yields the empty array (helper for C5). -/
theorem limit_aux_zero (data : List JValue) (M : Nat) :
    LimitRule.execute data
      (.obj [("count", .num 0), ("offset", .num (M : Int))]) = [] := by
  rw [LimitRule.execute]
  · simp only [jsIndex, jlookup]
    norm_num
    by_cases hM : M = 0
    · subst hM
      simp [truthy, FunctionalUtils.take, FunctionalUtils.skip, jsSliceTo]
    · rw [if_pos (by simp [truthy]; omega)]
      simp [FunctionalUtils.take, jsSliceTo]
  · intro n h
    exact JValue.noConfusion h

/-- C5: for an array of length L, `Limit.execute` with `{count: N, offset:
M}` returns exactly `records.slice(M, M+N)` (drop M then take N); offset
defaults to 0 when absent, a bare number means `{count: N}`; the output
length is `min N (L - M)` (truncated subtraction, i.e. `max(0, min(N,
L-M))`), so overrun yields the empty array rather than an error, and count 0
always yields the empty array. -/
theorem limit_slice_semantics (data : List JValue) (N M : Nat) :
    LimitRule.execute data
        (.obj [("count", .num (N : Int)), ("offset", .num (M : Int))])
      = (data.drop M).take N
  ∧ LimitRule.execute data (.obj [("count", .num (N : Int))]) = data.take N
  ∧ LimitRule.execute data (.num (N : Int)) = data.take N
  ∧ (LimitRule.execute data
        (.obj [("count", .num (N : Int)), ("offset", .num (M : Int))])).length
      = min N (data.length - M)
  ∧ LimitRule.execute data
        (.obj [("count", .num 0), ("offset", .num (M : Int))]) = [] := by
  have h1 : LimitRule.execute data
      (.obj [("count", .num (N : Int)), ("offset", .num (M : Int))])
      = (data.drop M).take N := by
    rw [LimitRule.execute]
    · simp only [jsIndex, jlookup]
      norm_num
      by_cases hM : M = 0
      · subst hM
        simp [truthy, FunctionalUtils.take, FunctionalUtils.skip,
          jsSliceFrom_zero, jsSliceTo_ofNat]
      · rw [if_pos (by simp [truthy]; omega)]
        simp [FunctionalUtils.take, FunctionalUtils.skip,
          jsSliceFrom_ofNat, jsSliceTo_ofNat]
    · intro n h
      exact JValue.noConfusion h
  have h2 : LimitRule.execute data (.obj [("count", .num (N : Int))])
      = data.take N := by
    rw [LimitRule.execute]
    · simp only [jsIndex, jlookup]
      norm_num
      simp [truthy, FunctionalUtils.take, FunctionalUtils.skip,
        jsSliceFrom_zero, jsSliceTo_ofNat]
    · intro n h
      exact JValue.noConfusion h
  refine ⟨h1, h2, ?h3, ?h4, limit_aux_zero data M⟩
  · rw [LimitRule.execute]
    simp [FunctionalUtils.take, FunctionalUtils.skip,
      jsSliceFrom_zero, jsSliceTo_ofNat]
  · rw [h1]
    simp

/-- Modelled from the spec (claim side of C8): the plain nested-path walk —
follow each segment, and fail to undefined as soon as a segment is missing
or the current value is not traversable. -/
def walkPath : Option JValue → List String → Option JValue
  | v, [] => v
  | v, k :: ks =>
      if truthy v && (jsIndex v k).isSome then walkPath (jsIndex v k) ks
      else none

theorem getNested_foldl_none : ∀ ks : List String,
    ks.foldl (fun current key =>
      if truthy current && (jsIndex current key).isSome then jsIndex current key
      else none) none = none
  | [] => rfl
  | _ :: ks => by
      rw [List.foldl_cons]
      simp only [truthy, Bool.false_and, if_neg]
      exact getNested_foldl_none ks

/-- C8 counterexample: with record `{}`, path `"a.b"` and default value
`{b: 5}`, the source returns `5`, not the default: when the segment `a` is
missing, the reduce substitutes the default and keeps walking the remaining
segments on it, so a traversable default can yield one of its own nested
values instead of itself. -/
theorem getNestedProperty_default_reentered :
    getNestedProperty (some (.obj [])) "a.b" (some (.obj [("b", .num 5)]))
      = some (.num 5)
  ∧ some (JValue.num 5) ≠ some (JValue.obj [("b", JValue.num 5)]) := by
  constructor
  · rfl
  · simp

/-- C8 (amended): with the (usual) undefined default, `getNestedProperty`
is exactly the plain nested-path walk: it returns undefined whenever any
path segment is missing or the value at that point is not traversable, and
it is total (never throws).  For a general default, the default is
substituted at the failing step and the remaining segments continue walking
from it. -/
theorem getNestedProperty_walk (obj : Option JValue) (path : String) :
    getNestedProperty obj path none = walkPath obj (splitDot path) := by
  unfold getNestedProperty
  generalize splitDot path = segs
  induction segs generalizing obj with
  | nil => rfl
  | cons k ks ih =>
      rw [List.foldl_cons, walkPath]
      by_cases h : (truthy obj && (jsIndex obj k).isSome) = true
      · rw [if_pos h, if_pos h]
        exact ih _
      · rw [if_neg h, if_neg h]
        exact getNested_foldl_none ks

/-- C4: `Sort.execute` is stable: its output is the value projection of the
stable sort of the index-tagged records, and in that tagged sort any two
records comparing equal on all sort keys (multi-key natural comparator = 0)
keep strictly increasing original indices, i.e. their original relative
order. -/
theorem sortRule_execute_stable (data : List JValue) (keys : List String) :
    SortRule.execute data (.arr (keys.map .str))
      = (sortJs (fun p q : Nat × JValue => multiKeyComparator keys p.2 q.2)
          data.enum).map Prod.snd
  ∧ (sortJs (fun p q : Nat × JValue => multiKeyComparator keys p.2 q.2)
        data.enum).Pairwise
      (fun p q => multiKeyComparator keys p.2 q.2 = 0 → p.1 < q.1) := by
  have H := multiKey_cmpKeyed keys
  have H2 : CmpKeyed (fun p q : Nat × JValue => multiKeyComparator keys p.2 q.2)
      (fun p => mkSortKey keys p.2) (lexOrdBy cmpView) := by
    constructor
    · exact fun a b => H.agreeLt a.2 b.2
    · exact fun a b => H.agreeEq a.2 b.2
    · exact H.kcSwap
    · exact H.kcEqIff
    · exact H.kcTransLt
  constructor
  · have hkeys : sortKeysOf (.arr (keys.map .str)) = keys := by
      simp only [sortKeysOf, List.map_map]
      exact List.map_id keys
    rw [SortRule.execute, FunctionalUtils.sortBy, hkeys]
    rw [sortJs_map Prod.snd (multiKeyComparator keys)
        (fun p q : Nat × JValue => multiKeyComparator keys p.2 q.2)
        (fun p q => rfl) data.enum]
    rw [List.enum_map_snd]
  · have hp := sortJs_pairwise_tagged H2 Prod.fst data.enum (enum_pairwise_fst data)
    refine hp.imp ?him
    intro a b hs heq
    rcases hs with hlt | ⟨he, ht⟩
    · exfalso
      have heq2 := (H2.agreeEq a b).mp heq
      rw [heq2] at hlt
      exact absurd hlt (by simp)
    · exact ht

/-- The sort model's output is pairwise non-positive under the comparator,
for any key-induced comparator. -/
theorem sortJs_pairwise_le {cmp : α → α → Int} {k : α → κ} {kc : κ → κ → Ordering}
    (H : CmpKeyed cmp k kc) (l : List α) :
    (sortJs cmp l).Pairwise (fun a b => cmp a b ≤ 0) := by
  have H2 : CmpKeyed (fun p q : Nat × α => cmp p.2 q.2) (fun p => k p.2) kc := by
    constructor
    · exact fun a b => H.agreeLt a.2 b.2
    · exact fun a b => H.agreeEq a.2 b.2
    · exact H.kcSwap
    · exact H.kcEqIff
    · exact H.kcTransLt
  have hp := sortJs_pairwise_tagged H2 Prod.fst l.enum (enum_pairwise_fst l)
  have hmap := sortJs_map Prod.snd cmp (fun p q : Nat × α => cmp p.2 q.2)
    (fun p q => rfl) l.enum
  rw [List.enum_map_snd] at hmap
  rw [← hmap, List.pairwise_map]
  refine hp.imp ?him
  intro a b hs
  rcases hs with hlt | ⟨he, _⟩
  · have := (H2.agreeLt a b).mpr hlt
    omega
  · have := (H2.agreeEq a b).mpr he
    omega

/-- The priority comparator used by `processData` on rule entries is induced
by the priority key. -/
theorem priorityCmp_keyed : CmpKeyed (fun a b : String × JValue =>
    RuleRegistry.getPriority a.1 - RuleRegistry.getPriority b.1)
    (fun e => RuleRegistry.getPriority e.1) intCmp := by
  constructor
  · intro a b
    rw [intCmp_lt_iff]
    omega
  · intro a b
    rw [intCmp_eq_iff]
    omega
  · exact intCmp_swap
  · exact intCmp_eq_iff
  · exact intCmp_trans

/-- C2: rules execute in ascending order of their fixed priorities
(Include=1, Exclude=2, Sort=10, Transform=15, Limit=20): the executed entry
sequence is the priority-sorted permutation of the condition's registered
entries, independent of key order; in particular, for config
`{limit: 1, include: [{status: "active"}]}` written in either key order the
result is the first record matching status "active", because Include runs
before Limit. -/
theorem processData_priority_order (env : FnEnv) (data : List JValue)
    (condition : JValue) :
    RuleRegistry.getPriority "include" = 1
  ∧ RuleRegistry.getPriority "exclude" = 2
  ∧ RuleRegistry.getPriority "sortBy" = 10
  ∧ RuleRegistry.getPriority "transform" = 15
  ∧ RuleRegistry.getPriority "limit" = 20
  ∧ (DataProcessor.sortedRuleEntries condition).Pairwise
      (fun a b => RuleRegistry.getPriority a.1 ≤ RuleRegistry.getPriority b.1)
  ∧ (DataProcessor.sortedRuleEntries condition).Perm
      ((jsEntries condition).filter fun e => RuleRegistry.hasRule e.1)
  ∧ DataProcessor.processData env (.arr data)
        (.obj [("limit", .num 1),
               ("include", .arr [.obj [("status", .str "active")]])])
      = DataProcessor.processData env (.arr data)
        (.obj [("include", .arr [.obj [("status", .str "active")]]),
               ("limit", .num 1)])
  ∧ (DataProcessor.processData env (.arr data)
        (.obj [("limit", .num 1),
               ("include", .arr [.obj [("status", .str "active")]])])).result
      = (data.filter fun r =>
          matchesRecord r (.arr [.obj [("status", .str "active")]])).take 1 := by
  refine ⟨rfl, rfl, rfl, rfl, rfl, ?hpw, ?hperm, ?heq, ?hres⟩
  · have hp := sortJs_pairwise_le priorityCmp_keyed
      ((jsEntries condition).filter fun e => RuleRegistry.hasRule e.1)
    rw [DataProcessor.sortedRuleEntries]
    refine hp.imp ?him
    intro a b h
    omega
  · rw [DataProcessor.sortedRuleEntries]
    exact sortJs_perm _ _
  · rfl
  · rw [DataProcessor.processData, DataProcessor.processDataGo, deepCloneList_eq]
    rfl

/-- C1: `processData` never throws across its public boundary — it is a
total function into well-formed `ProcessingResult`s whose counts are always
coherent — and every failure (data not an array, condition not a truthy
object, or any rule stage throwing) produces a result with an EMPTY result
array, NO applied rules, and an error message in the metadata describing the
failure: the all-or-nothing contract, with no partial stage output. -/
theorem processData_total_error_handling (env : FnEnv) (data condition : JValue) :
    (DataProcessor.processData env data condition).metadata.outputCount
      = (DataProcessor.processData env data condition).result.length
  ∧ (DataProcessor.processData env data condition).metadata.inputCount
      = jsArrLength data
  ∧ ((DataProcessor.processData env data condition).metadata.error = none
     ∨ ((DataProcessor.processData env data condition).result = []
        ∧ (DataProcessor.processData env data condition).metadata.appliedRules = []
        ∧ ∃ m, (DataProcessor.processData env data condition).metadata.error = some m))
  ∧ (jsIsArray data = false →
      (DataProcessor.processData env data condition).result = []
      ∧ (DataProcessor.processData env data condition).metadata.error
          = some "Data must be an array")
  ∧ ((truthy (some condition) && jsTypeofObject condition) = false →
     ∀ records, data = .arr records →
      (DataProcessor.processData env data condition).result = []
      ∧ (DataProcessor.processData env data condition).metadata.error
          = some "Condition must be an object")
  ∧ (∀ records msg, data = .arr records →
      (truthy (some condition) && jsTypeofObject condition) = true →
      DataProcessor.runRules env (DataProcessor.sortedRuleEntries condition)
        (deepCloneList records) [] = .error msg →
      (DataProcessor.processData env data condition).result = []
      ∧ (DataProcessor.processData env data condition).metadata.error = some msg) := by
  cases data with
  | arr records =>
      by_cases hc : (truthy (some condition) && jsTypeofObject condition) = true
      · rw [DataProcessor.processData, DataProcessor.processDataGo, if_pos hc]
        cases hrun : DataProcessor.runRules env
            (DataProcessor.sortedRuleEntries condition) (deepCloneList records) [] with
        | ok pr =>
            refine ⟨rfl, rfl, Or.inl rfl, ?_, ?_, ?_⟩
            · intro hfalse
              exact absurd hfalse (by simp [jsIsArray])
            · intro hfalse
              rw [hc] at hfalse
              exact absurd hfalse (by simp)
            · intro records2 msg heq _ herr
              injection heq with heq2
              rw [← heq2] at herr
              rw [hrun] at herr
              exact absurd herr (by simp)
        | error msg =>
            refine ⟨rfl, rfl, Or.inr ⟨rfl, rfl, msg, rfl⟩, ?_, ?_, ?_⟩
            · intro hfalse
              exact absurd hfalse (by simp [jsIsArray])
            · intro hfalse
              rw [hc] at hfalse
              exact absurd hfalse (by simp)
            · intro records2 msg2 heq _ herr
              injection heq with heq2
              rw [← heq2] at herr
              rw [hrun] at herr
              injection herr with herr2
              rw [herr2]
              exact ⟨rfl, rfl⟩
      · rw [DataProcessor.processData, DataProcessor.processDataGo,
          if_neg hc]
        refine ⟨rfl, rfl, Or.inr ⟨rfl, rfl, _, rfl⟩, ?_, ?_, ?_⟩
        · intro hfalse
          exact absurd hfalse (by simp [jsIsArray])
        · intro _ _ _
          exact ⟨rfl, rfl⟩
        · intro records2 msg heq hc2 herr
          exact absurd hc2 hc
  | null =>
      exact ⟨rfl, rfl, Or.inr ⟨rfl, rfl, _, rfl⟩,
        fun _ => ⟨rfl, rfl⟩, fun _ records h => JValue.noConfusion h,
        fun records msg h => JValue.noConfusion h⟩
  | bool b =>
      exact ⟨rfl, rfl, Or.inr ⟨rfl, rfl, _, rfl⟩,
        fun _ => ⟨rfl, rfl⟩, fun _ records h => JValue.noConfusion h,
        fun records msg h => JValue.noConfusion h⟩
  | num n =>
      exact ⟨rfl, rfl, Or.inr ⟨rfl, rfl, _, rfl⟩,
        fun _ => ⟨rfl, rfl⟩, fun _ records h => JValue.noConfusion h,
        fun records msg h => JValue.noConfusion h⟩
  | str s =>
      exact ⟨rfl, rfl, Or.inr ⟨rfl, rfl, _, rfl⟩,
        fun _ => ⟨rfl, rfl⟩, fun _ records h => JValue.noConfusion h,
        fun records msg h => JValue.noConfusion h⟩
  | obj kvs =>
      exact ⟨rfl, rfl, Or.inr ⟨rfl, rfl, _, rfl⟩,
        fun _ => ⟨rfl, rfl⟩, fun _ records h => JValue.noConfusion h,
        fun records msg h => JValue.noConfusion h⟩
  | func f =>
      exact ⟨rfl, rfl, Or.inr ⟨rfl, rfl, _, rfl⟩,
        fun _ => ⟨rfl, rfl⟩, fun _ records h => JValue.noConfusion h,
        fun records msg h => JValue.noConfusion h⟩

/-- Fixed function environment used by concrete examples: every symbol
throws except "constTrue", which returns `true`. -/
def envExample : FnEnv := fun name _ =>
  if name = "constTrue" then .ok (.bool true) else .error "is not a function"

/-- Witness for C1: at the concrete non-array input `3`, `processData`
recovers with an empty result and the describing error message. -/
theorem processData_total_error_handling_witness :
    (DataProcessor.processData envExample (.num 3) (.obj [])).result = []
  ∧ (DataProcessor.processData envExample (.num 3) (.obj [])).metadata.error
      = some "Data must be an array" :=
  (processData_total_error_handling envExample (.num 3) (.obj [])).2.2.2.1 rfl

theorem jlookup_append_right (k : String) (v : JValue) :
    ∀ kvs : List (String × JValue), (∀ kv ∈ kvs, kv.1 ≠ k) →
      jlookup (kvs ++ [(k, v)]) k = some v
  | [], _ => by simp [jlookup]
  | kv :: rest, h => by
      rw [List.cons_append, jlookup, if_neg (h kv (by simp))]
      exact jlookup_append_right k v rest (fun x hx => h x (by simp [hx]))

theorem jlookup_map_set (k : String) (v : JValue) :
    ∀ kvs : List (String × JValue), k ∈ kvs.map Prod.fst →
      jlookup (kvs.map (fun kv => if kv.1 = k then (k, v) else kv)) k = some v
  | [], h => by simp at h
  | kv :: rest, h => by
      rw [List.map_cons]
      by_cases hk : kv.1 = k
      · rw [if_pos hk, jlookup, if_pos rfl]
      · rw [if_neg hk, jlookup, if_neg hk]
        apply jlookup_map_set k v rest
        rcases List.mem_cons.mp h with h1 | h1
        · exact absurd h1.symm hk
        · exact h1

/-- Setting a key makes it present with that value. -/
theorem jlookup_set_self (k : String) (v : JValue) (kvs : List (String × JValue)) :
    jlookup (jsSetKeyKvs kvs k v) k = some v := by
  rw [jsSetKeyKvs]
  split
  · rename_i hc
    exact jlookup_map_set k v kvs (List.elem_iff.mp hc)
  · rename_i hc
    refine jlookup_append_right k v kvs ?hne
    intro kv hkv hk
    exact hc (List.elem_iff.mpr (hk ▸ List.mem_map_of_mem Prod.fst hkv))

theorem jlookup_map_set_other (k k2 : String) (v : JValue) (hne : k ≠ k2) :
    ∀ kvs : List (String × JValue),
      jlookup (kvs.map (fun kv => if kv.1 = k2 then (k2, v) else kv)) k = jlookup kvs k
  | [] => rfl
  | kv :: rest => by
      rw [List.map_cons]
      by_cases hk2 : kv.1 = k2
      · rw [if_pos hk2, jlookup, jlookup,
          if_neg (show ¬ (k2, v).1 = k from fun h => hne h.symm),
          if_neg (show ¬ kv.1 = k from by rw [hk2]; exact fun h => hne h.symm)]
        exact jlookup_map_set_other k k2 v hne rest
      · rw [if_neg hk2, jlookup, jlookup]
        by_cases hk : kv.1 = k
        · rw [if_pos hk, if_pos hk]
        · rw [if_neg hk, if_neg hk]
          exact jlookup_map_set_other k k2 v hne rest

theorem jlookup_append_other (k k2 : String) (v : JValue) (hne : k ≠ k2) :
    ∀ kvs : List (String × JValue),
      jlookup (kvs ++ [(k2, v)]) k = jlookup kvs k
  | [] => by
      rw [List.nil_append, jlookup, jlookup,
        if_neg (show ¬ (k2, v).1 = k from fun h => hne h.symm), jlookup]
  | kv :: rest => by
      rw [List.cons_append, jlookup, jlookup]
      by_cases hk : kv.1 = k
      · rw [if_pos hk, if_pos hk]
      · rw [if_neg hk, if_neg hk]
        exact jlookup_append_other k k2 v hne rest

/-- Setting a different key does not disturb a lookup. -/
theorem jlookup_set_other (k k2 : String) (hne : k ≠ k2) (v : JValue)
    (kvs : List (String × JValue)) :
    jlookup (jsSetKeyKvs kvs k2 v) k = jlookup kvs k := by
  rw [jsSetKeyKvs]
  split
  · exact jlookup_map_set_other k k2 v hne kvs
  · exact jlookup_append_other k k2 v hne kvs

/-- Is the value an object? -/
def isObjV : JValue → Bool
  | .obj _ => true
  | _ => false

theorem computedStep_obj (env : FnEnv) (record : JValue)
    (kvs : List (String × JValue)) (kc : String × JValue) :
    isObjV (computedStep env record (.obj kvs) kc) = true := by
  rcases hk : kc.2 with _ | _ | _ | tmpl | _ | _ | fname <;>
    simp [computedStep, hk, jsSetKey, isObjV]
  cases env fname record <;> simp [jsSetKey, isObjV]

theorem computedFold_obj (env : FnEnv) (record : JValue) :
    ∀ (entries : List (String × JValue)) (acc : JValue), isObjV acc = true →
      isObjV (entries.foldl (computedStep env record) acc) = true
  | [], _, h => h
  | e :: rest, acc, h => by
      rw [List.foldl_cons]
      refine computedFold_obj env record rest _ ?hs
      cases acc <;> simp [isObjV] at h <;> try exact h
      exact computedStep_obj env record _ e

theorem computedStep_lookup_other (env : FnEnv) (record : JValue) (acc : JValue)
    (kc : String × JValue) (k : String) (hne : kc.1 ≠ k) :
    jsIndex (some (computedStep env record acc kc)) k = jsIndex (some acc) k := by
  have hset : ∀ w, jsIndex (some (jsSetKey acc kc.1 w)) k = jsIndex (some acc) k := by
    intro w
    cases acc <;> simp [jsSetKey, jsIndex]
    exact jlookup_set_other k kc.1 (Ne.symm hne) w _
  rcases hk : kc.2 with _ | _ | _ | tmpl | _ | _ | fname <;>
    simp [computedStep, hk]
  · exact hset _
  · cases env fname record <;> exact hset _

theorem computedFold_lookup_frame (env : FnEnv) (record : JValue) (k : String) :
    ∀ (entries : List (String × JValue)) (acc : JValue),
      (∀ kv ∈ entries, kv.1 ≠ k) →
      jsIndex (some (entries.foldl (computedStep env record) acc)) k
        = jsIndex (some acc) k
  | [], _, _ => rfl
  | e :: rest, acc, h => by
      rw [List.foldl_cons,
        computedFold_lookup_frame env record k rest _
          (fun kv hkv => h kv (by simp [hkv]))]
      exact computedStep_lookup_other env record acc e k (h e (by simp))

/-- A function environment for exercising the Transform rule: `getAge` reads
the `age` property of the record it is invoked on, anything else throws. -/
def envC6 : FnEnv := fun name r =>
  if name = "getAge" then
    match jsIndex (some r) "age" with
    | some v => .ok v
    | none => .error "undefined age"
  else .error "is not a function"

/-- C6: for every record and every Transform config with `fields` narrowing
and a `computed` entry `(k, f)` (keys distinct), the computed-field function
is invoked with the ORIGINAL record `rkvs` — not the fields-narrowed one —
and the transformed record holds under `k` the function's result, or `null`
when the computation throws; the rest of the record and the pipeline are
unaffected (the transform is a total function of the inputs). -/
theorem transform_computed_uses_original (env : FnEnv)
    (rkvs : List (String × JValue)) (fieldsCfg : JValue)
    (ckvs : List (String × JValue)) (k fname : String)
    (hmem : (k, JValue.func fname) ∈ ckvs)
    (hnodup : (ckvs.map Prod.fst).Nodup) :
    jsIndex (some (TransformRule.transformRecord env (.obj rkvs)
        (.obj [("fields", fieldsCfg), ("computed", .obj ckvs)]))) k
      = some (match env fname (.obj rkvs) with
              | .ok v => v
              | .error _ => .null) := by
  obtain ⟨pre, post, hsplit⟩ := List.mem_iff_append.mp hmem
  subst hsplit
  have hT : TransformRule.transformRecord env (.obj rkvs)
      (.obj [("fields", fieldsCfg),
        ("computed", .obj (pre ++ (k, JValue.func fname) :: post))])
    = (pre ++ (k, JValue.func fname) :: post).foldl (computedStep env (.obj rkvs))
        (if truthy (some fieldsCfg) then
          .obj (fieldsNarrow (.obj rkvs) fieldsCfg)
        else deepClone (.obj rkvs)) := rfl
  rw [hT, List.foldl_append, List.foldl_cons]
  have hknotin : k ∉ post.map Prod.fst := by
    rw [List.map_append, List.map_cons] at hnodup
    exact (List.nodup_cons.mp (List.Nodup.of_append_right hnodup)).1
  have hkpost : ∀ kv ∈ post, kv.1 ≠ k := by
    intro kv hkv hk1
    exact hknotin (hk1 ▸ List.mem_map_of_mem Prod.fst hkv)
  rw [computedFold_lookup_frame env (.obj rkvs) k post _ hkpost]
  have hobj : isObjV (pre.foldl (computedStep env (.obj rkvs))
      (if truthy (some fieldsCfg) then .obj (fieldsNarrow (.obj rkvs) fieldsCfg)
       else deepClone (.obj rkvs))) = true := by
    refine computedFold_obj env (.obj rkvs) pre _ ?h0
    by_cases ht : truthy (some fieldsCfg)
    · rw [if_pos ht]; rfl
    · rw [if_neg ht, deepClone_eq]; rfl
  have hexists : ∀ v : JValue, isObjV v = true → ∃ okvs, v = JValue.obj okvs := by
    intro v hv
    cases v <;> simp [isObjV] at hv
    exact ⟨_, rfl⟩
  obtain ⟨okvs, hacc⟩ := hexists _ hobj
  rw [hacc]
  have hstep : computedStep env (.obj rkvs) (.obj okvs) (k, .func fname)
      = (match env fname (.obj rkvs) with
         | .ok v => jsSetKey (.obj okvs) k v
         | .error _ => jsSetKey (.obj okvs) k .null) := rfl
  rw [hstep]
  cases henv : env fname (JValue.obj rkvs) with
  | ok v =>
      show jsIndex (some (jsSetKey (JValue.obj okvs) k v)) k = some v
      show jlookup (jsSetKeyKvs okvs k v) k = some v
      exact jlookup_set_self k v okvs
  | error e =>
      show jsIndex (some (jsSetKey (JValue.obj okvs) k JValue.null)) k
        = some JValue.null
      show jlookup (jsSetKeyKvs okvs k JValue.null) k = some JValue.null
      exact jlookup_set_self k JValue.null okvs

/-- Witness for C6 at a concrete transform: `fields` narrows away `age`, yet
the computed `ageCopy` still reads `age` from the original record, and the
throwing `bad` entry is caught as `null` without aborting. -/
theorem transform_computed_uses_original_witness :
    jsIndex (some (TransformRule.transformRecord envC6
        (.obj [("name", .str "a"), ("age", .num 30)])
        (.obj [("fields", .arr [.str "name"]),
               ("computed", .obj [("ageCopy", .func "getAge"),
                                  ("bad", .func "boom")])])))
      "ageCopy" = some (.num 30) := by
  have h := transform_computed_uses_original envC6
    [("name", .str "a"), ("age", .num 30)] (.arr [.str "name"])
    [("ageCopy", .func "getAge"), ("bad", .func "boom")]
    "ageCopy" "getAge" (by simp) (by simp)
  exact h.trans rfl

/-- On success the applied list of the rule loop is the input list extended
with one `{type, config, priority}` entry per executed stage, in order. -/
theorem runRules_applied (env : FnEnv) :
    ∀ (entries : List (String × JValue)) (data : List JValue)
      (applied : List AppliedRule) (res : List JValue) (appl : List AppliedRule),
      DataProcessor.runRules env entries data applied = .ok (res, appl) →
      appl = applied
        ++ entries.map (fun e => ⟨e.1, e.2, RuleRegistry.getPriority e.1⟩)
  | [], data, applied, res, appl => by
      intro h
      simp only [DataProcessor.runRules, Except.ok.injEq, Prod.mk.injEq] at h
      simp [h.2]
  | (t, config) :: rest, data, applied, res, appl => by
      intro h
      simp only [DataProcessor.runRules] at h
      cases he : RuleRegistry.executeRule env t data config with
      | ok d2 =>
          rw [he] at h
          rw [runRules_applied env rest d2
            (applied ++ [⟨t, config, RuleRegistry.getPriority t⟩]) res appl h]
          simp
      | error msg =>
          rw [he] at h
          exact absurd h (by simp)

/-- C9 amended: on every successful `processData` call the metadata holds
`inputCount` (length of the input array), `outputCount` (length of the
result), the elapsed `processingTime` (a field named `processingTime`, not
`processingTimeMs`; abstracted to 0 here), and `appliedRules` whose entries
are `\x7btype, config, priority\x7d` triples — carrying the stage's config, not
bare `\x7btype, priority\x7d` pairs — one per registered rule of the condition in
priority order. -/
theorem processData_metadata_success_shape (env : FnEnv) (data condition : JValue)
    (hok : (DataProcessor.processData env data condition).metadata.error = none) :
    (DataProcessor.processData env data condition).metadata.inputCount
        = jsArrLength data ∧
    (DataProcessor.processData env data condition).metadata.outputCount
        = (DataProcessor.processData env data condition).result.length ∧
    (DataProcessor.processData env data condition).metadata.processingTime = 0 ∧
    (DataProcessor.processData env data condition).metadata.appliedRules
      = (DataProcessor.sortedRuleEntries condition).map
          (fun e => ⟨e.1, e.2, RuleRegistry.getPriority e.1⟩) := by
  cases hgo : DataProcessor.processDataGo env data condition with
  | ok p =>
      obtain ⟨res, appl⟩ := p
      rw [DataProcessor.processData, hgo]
      refine ⟨rfl, rfl, rfl, ?happl⟩
      show appl = (DataProcessor.sortedRuleEntries condition).map
        (fun e => ⟨e.1, e.2, RuleRegistry.getPriority e.1⟩)
      cases data with
      | arr records =>
          rw [DataProcessor.processDataGo] at hgo
          by_cases hc : (truthy (some condition) && jsTypeofObject condition) = true
          · rw [if_pos hc] at hgo
            simpa using runRules_applied env
              (DataProcessor.sortedRuleEntries condition)
              (deepCloneList records) [] res appl hgo
          · rw [if_neg hc] at hgo
            exact absurd hgo (by simp)
      | null => exact absurd hgo (by simp [DataProcessor.processDataGo])
      | bool b => exact absurd hgo (by simp [DataProcessor.processDataGo])
      | num n => exact absurd hgo (by simp [DataProcessor.processDataGo])
      | str s => exact absurd hgo (by simp [DataProcessor.processDataGo])
      | obj kvs => exact absurd hgo (by simp [DataProcessor.processDataGo])
      | func f => exact absurd hgo (by simp [DataProcessor.processDataGo])
  | error msg =>
      rw [DataProcessor.processData, hgo] at hok
      exact absurd hok (by simp)

/-- Witness for the amended C9 at a concrete successful call. -/
theorem processData_metadata_success_shape_witness :
    (DataProcessor.processData envExample (.arr [.obj []])
        (.obj [("limit", .num 1)])).metadata.appliedRules
      = (DataProcessor.sortedRuleEntries (.obj [("limit", .num 1)])).map
          (fun e => ⟨e.1, e.2, RuleRegistry.getPriority e.1⟩) :=
  (processData_metadata_success_shape envExample (.arr [.obj []])
    (.obj [("limit", .num 1)]) rfl).2.2.2

/-- Counterexample to C9 as stated: appliedRules entries are NOT bare
`\x7btype, priority\x7d` pairs — two successful calls differing only in the limit
config agree on every `(type, priority)` projection yet produce different
appliedRules, because each entry also carries the stage's `config`. -/
theorem processData_metadata_shape_cex :
    (DataProcessor.processData envExample (.arr [.obj []])
        (.obj [("limit", .num 1)])).metadata.error = none ∧
    (DataProcessor.processData envExample (.arr [.obj []])
        (.obj [("limit", .num 2)])).metadata.error = none ∧
    ((DataProcessor.processData envExample (.arr [.obj []])
        (.obj [("limit", .num 1)])).metadata.appliedRules.map
          (fun r => (r.type, r.priority))
      = (DataProcessor.processData envExample (.arr [.obj []])
        (.obj [("limit", .num 2)])).metadata.appliedRules.map
          (fun r => (r.type, r.priority))) ∧
    (DataProcessor.processData envExample (.arr [.obj []])
        (.obj [("limit", .num 1)])).metadata.appliedRules
      ≠ (DataProcessor.processData envExample (.arr [.obj []])
        (.obj [("limit", .num 2)])).metadata.appliedRules := by
  refine ⟨rfl, rfl, rfl, ?hne⟩
  intro h
  have h1 : (DataProcessor.processData envExample (.arr [.obj []])
      (.obj [("limit", .num 1)])).metadata.appliedRules
      = [⟨"limit", .num 1, 20⟩] := rfl
  have h2 : (DataProcessor.processData envExample (.arr [.obj []])
      (.obj [("limit", .num 2)])).metadata.appliedRules
      = [⟨"limit", .num 2, 20⟩] := rfl
  rw [h1, h2] at h
  simp at h

/-- Membership in the `Set`-style dedup fold: the result holds exactly the
seed keys and the folded keys. -/
theorem mem_addKeys (k : String) :
    ∀ (ks acc : List String),
      (k ∈ ks.foldl (fun a k2 => if a.contains k2 then a else a ++ [k2]) acc
        ↔ k ∈ acc ∨ k ∈ ks)
  | [], acc => by simp
  | k0 :: ks, acc => by
      rw [List.foldl_cons, mem_addKeys k ks]
      by_cases hc : acc.contains k0
      · rw [if_pos hc]
        constructor
        · rintro (h | h)
          · exact Or.inl h
          · exact Or.inr (List.mem_cons_of_mem k0 h)
        · rintro (h | h)
          · exact Or.inl h
          · rcases List.mem_cons.mp h with h1 | h1
            · exact Or.inl (h1 ▸ List.elem_iff.mp hc)
            · exact Or.inr h1
      · rw [if_neg hc]
        constructor
        · rintro (h | h)
          · rcases List.mem_append.mp h with h1 | h1
            · exact Or.inl h1
            · exact Or.inr (List.mem_cons.mpr (Or.inl (List.mem_singleton.mp h1)))
          · exact Or.inr (List.mem_cons_of_mem k0 h)
        · rintro (h | h)
          · exact Or.inl (List.mem_append.mpr (Or.inl h))
          · rcases List.mem_cons.mp h with h1 | h1
            · exact Or.inl (List.mem_append.mpr (Or.inr (by simp [h1])))
            · exact Or.inr h1

/-- Membership in the field-collection fold: a key is collected iff it is a
seed key or an own key of some record. -/
theorem collectFields_go_mem (k : String) :
    ∀ (data : List JValue) (acc : List String),
      (k ∈ data.foldl
        (fun acc r =>
          match r with
          | .obj _ =>
              (jsKeys r).foldl (fun a k => if a.contains k then a else a ++ [k]) acc
          | .arr _ =>
              (jsKeys r).foldl (fun a k => if a.contains k then a else a ++ [k]) acc
          | _ => acc)
        acc
        ↔ k ∈ acc ∨ ∃ r ∈ data, k ∈ jsKeys r)
  | [], acc => by simp
  | r :: rest, acc => by
      rw [List.foldl_cons, collectFields_go_mem k rest]
      cases r with
      | obj kvs =>
          rw [mem_addKeys k]
          constructor
          · rintro ((h | h) | h)
            · exact Or.inl h
            · exact Or.inr ⟨_, List.mem_cons_self _ _, h⟩
            · obtain ⟨r, hr, hk⟩ := h
              exact Or.inr ⟨r, List.mem_cons_of_mem _ hr, hk⟩
          · rintro (h | h)
            · exact Or.inl (Or.inl h)
            · obtain ⟨r, hr, hk⟩ := h
              rcases List.mem_cons.mp hr with h1 | h1
              · exact Or.inl (Or.inr (h1 ▸ hk))
              · exact Or.inr ⟨r, h1, hk⟩
      | arr xs =>
          rw [mem_addKeys k]
          constructor
          · rintro ((h | h) | h)
            · exact Or.inl h
            · exact Or.inr ⟨_, List.mem_cons_self _ _, h⟩
            · obtain ⟨r, hr, hk⟩ := h
              exact Or.inr ⟨r, List.mem_cons_of_mem _ hr, hk⟩
          · rintro (h | h)
            · exact Or.inl (Or.inl h)
            · obtain ⟨r, hr, hk⟩ := h
              rcases List.mem_cons.mp hr with h1 | h1
              · exact Or.inl (Or.inr (h1 ▸ hk))
              · exact Or.inr ⟨r, h1, hk⟩
      | null =>
          constructor
          · rintro (h | h)
            · exact Or.inl h
            · obtain ⟨r, hr, hk⟩ := h
              exact Or.inr ⟨r, List.mem_cons_of_mem _ hr, hk⟩
          · rintro (h | h)
            · exact Or.inl h
            · obtain ⟨r, hr, hk⟩ := h
              rcases List.mem_cons.mp hr with h1 | h1
              · rw [h1] at hk
                simp [jsKeys, jsEntries] at hk
              · exact Or.inr ⟨r, h1, hk⟩
      | bool b =>
          constructor
          · rintro (h | h)
            · exact Or.inl h
            · obtain ⟨r, hr, hk⟩ := h
              exact Or.inr ⟨r, List.mem_cons_of_mem _ hr, hk⟩
          · rintro (h | h)
            · exact Or.inl h
            · obtain ⟨r, hr, hk⟩ := h
              rcases List.mem_cons.mp hr with h1 | h1
              · rw [h1] at hk
                simp [jsKeys, jsEntries] at hk
              · exact Or.inr ⟨r, h1, hk⟩
      | num n =>
          constructor
          · rintro (h | h)
            · exact Or.inl h
            · obtain ⟨r, hr, hk⟩ := h
              exact Or.inr ⟨r, List.mem_cons_of_mem _ hr, hk⟩
          · rintro (h | h)
            · exact Or.inl h
            · obtain ⟨r, hr, hk⟩ := h
              rcases List.mem_cons.mp hr with h1 | h1
              · rw [h1] at hk
                simp [jsKeys, jsEntries] at hk
              · exact Or.inr ⟨r, h1, hk⟩
      | str s =>
          constructor
          · rintro (h | h)
            · exact Or.inl h
            · obtain ⟨r, hr, hk⟩ := h
              exact Or.inr ⟨r, List.mem_cons_of_mem _ hr, hk⟩
          · rintro (h | h)
            · exact Or.inl h
            · obtain ⟨r, hr, hk⟩ := h
              rcases List.mem_cons.mp hr with h1 | h1
              · rw [h1] at hk
                simp [jsKeys, jsEntries] at hk
              · exact Or.inr ⟨r, h1, hk⟩
      | func f =>
          constructor
          · rintro (h | h)
            · exact Or.inl h
            · obtain ⟨r, hr, hk⟩ := h
              exact Or.inr ⟨r, List.mem_cons_of_mem _ hr, hk⟩
          · rintro (h | h)
            · exact Or.inl h
            · obtain ⟨r, hr, hk⟩ := h
              rcases List.mem_cons.mp hr with h1 | h1
              · rw [h1] at hk
                simp [jsKeys, jsEntries] at hk
              · exact Or.inr ⟨r, h1, hk⟩

/-- C10 amended: for every result with a non-empty record array, `exportResult`
in CSV (or TSV, differing only in the delimiter) emits a header of the union
of field names collected across ALL records, renders a missing or null field
as the empty quoted string `""`, and double-quotes every field — but embedded
double quotes are doubled only in DATA cells (`escapeQuotes`); header fields
are quoted verbatim, without escaping. -/
theorem exportResult_csv_tsv (r : ProcessingResult)
    (hne : r.result.isEmpty = false) :
    (∀ k, k ∈ DataProcessor.collectFields r.result
        ↔ ∃ rec ∈ r.result, k ∈ jsKeys rec) ∧
    DataProcessor.exportResult r "csv"
      = .ok (String.intercalate "\n"
          (String.intercalate ","
              ((DataProcessor.collectFields r.result).map fun f => "\"" ++ f ++ "\"")
            :: r.result.map fun record =>
              String.intercalate ","
                ((DataProcessor.collectFields r.result).map fun f =>
                  match jsIndex (some record) f with
                  | none => "\"\""
                  | some .null => "\"\""
                  | some v => "\"" ++ escapeQuotes (jsToStringV v) ++ "\""))) ∧
    DataProcessor.exportResult r "tsv"
      = .ok (String.intercalate "\n"
          (String.intercalate "\t"
              ((DataProcessor.collectFields r.result).map fun f => "\"" ++ f ++ "\"")
            :: r.result.map fun record =>
              String.intercalate "\t"
                ((DataProcessor.collectFields r.result).map fun f =>
                  match jsIndex (some record) f with
                  | none => "\"\""
                  | some .null => "\"\""
                  | some v => "\"" ++ escapeQuotes (jsToStringV v) ++ "\""))) := by
  refine ⟨?hmem, ?hcsv, ?htsv⟩
  · intro k
    have h := collectFields_go_mem k r.result []
    simpa [DataProcessor.collectFields] using h
  · show Except.ok (DataProcessor.convertToCSV r.result ",") = _
    rw [DataProcessor.convertToCSV,
      if_neg (show ¬(r.result.isEmpty = true) from by rw [hne]; exact Bool.false_ne_true)]
  · show Except.ok (DataProcessor.convertToCSV r.result "\t") = _
    rw [DataProcessor.convertToCSV,
      if_neg (show ¬(r.result.isEmpty = true) from by rw [hne]; exact Bool.false_ne_true)]

/-- Witness for the amended C10 at a concrete two-record result: the header
is the union of the fields of both records, and missing/null cells are `""`. -/
theorem exportResult_csv_tsv_witness :
    DataProcessor.exportResult
        ⟨[.obj [("a", .num 1)], .obj [("b", .null)]], ⟨2, 2, 0, [], none⟩⟩ "csv"
      = .ok "\"a\",\"b\"\n\"1\",\"\"\n\"\",\"\"" := by
  have h := exportResult_csv_tsv
    ⟨[.obj [("a", .num 1)], .obj [("b", .null)]], ⟨2, 2, 0, [], none⟩⟩ rfl
  exact h.2.1.trans (by rfl)

/-- Counterexample to C10 as stated: a field name containing a double quote
is emitted in the header verbatim between quotes — NOT with the embedded
quote doubled — so the claim "escapes embedded double quotes by doubling
them" fails for the header. -/
theorem convertToCSV_header_unescaped_cex :
    DataProcessor.exportResult ⟨[.obj [("a\"b", .num 1)]], ⟨1, 1, 0, [], none⟩⟩ "csv"
      = .ok ("\"a\"b\"\n\"1\"") ∧
    ("\"a\"b\"" : String) ≠ "\"" ++ escapeQuotes "a\"b" ++ "\"" := by
  constructor
  · rfl
  · decide
